import Mathlib

/-!
Verification development for the folder-structure tree engine of
`src/src/App.jsx` (a React application whose core is a mutable tree of
folder/file nodes keyed by id).

Shallow embedding conventions:
* Node ids are modelled by an inductive type with the distinguished root id
  (`ROOT_ID = "root"` in the source) and a countable supply `NId.gen n` of
  generated ids standing for the outputs of the source's `uid()`; `uid()` is
  random, so functions that call it (`addItem`, `buildFromNested`) take the
  generated id(s) as explicit arguments or assign them from a counter.
* A JS object keyed by id is modelled as an association list in insertion
  order (`Store`); `copy[id] = v` is `setN`, `delete copy[id]` is `eraseN`,
  mutating a field of `copy[id]` is `modifyN`.  `clone` (deep copy) is the
  identity here because Lean values are immutable.
* JS file nodes carry no `children`/`isOpen` fields; here every `Node` has
  both, and a file's `children` reads as `[]` exactly as `n.children || []`
  does in the source.  Guarded accesses (`?.`, truthiness tests) become
  `Option` matches; the one unguarded fatal access in the source
  (`setChildrenOrder` on an absent `parentId`) is modelled by `Option Store`
  with `none` for the thrown `TypeError`.
* The source's unbounded loops over parent chains / subtree stacks terminate
  only on acyclic stores; they are modelled with an explicit fuel argument,
  instantiated with the store size, which is sufficient on stores satisfying
  the structural invariants.
-/

inductive NId where
  | root : NId
  | gen : Nat → NId
deriving DecidableEq, Repr

inductive Kind where
  | folder : Kind
  | file : Kind
deriving DecidableEq, Repr

structure Node where
  kind : Kind
  name : String
  parent : Option NId
  children : List NId
  isOpen : Bool
deriving DecidableEq, Repr

/-- A store: JS object mapping id to node, in insertion order.
The source also keeps `n.id` equal to the key; we use the key only. -/
abbrev Store := List (NId × Node)

/-- Lookup `nodes[i]` (first matching key). -/
def getN : Store → NId → Option Node
  | [], _ => none
  | kv :: rest, i => if kv.1 = i then some kv.2 else getN rest i

/-- JS `copy[i] = v`: replace the binding if present, else append (insertion order). -/
def setN : Store → NId → Node → Store
  | [], i, v => [(i, v)]
  | kv :: rest, i, v => if kv.1 = i then (i, v) :: rest else kv :: setN rest i v

/-- Mutating a field of `copy[i]` in place: apply `f` to the node bound to `i`. -/
def modifyN (s : Store) (i : NId) (f : Node → Node) : Store :=
  s.map (fun kv => if kv.1 = i then (kv.1, f kv.2) else kv)

/-- JS `delete copy[i]`. -/
def eraseN (s : Store) (i : NId) : Store :=
  s.filter (fun kv => decide ¬(kv.1 = i))

def keys (s : Store) : List NId :=
  s.map (·.1)

/-- `children.filter((cid) => cid !== x)` from the source. -/
def removeAll : List NId → NId → List NId
  | [], _ => []
  | c :: rest, x => if c = x then removeAll rest x else c :: removeAll rest x

/-- Index of the first occurrence, `none` standing for JS `indexOf`'s `-1`. -/
def idxOfN : List NId → NId → Option Nat
  | [], _ => none
  | c :: rest, x => if c = x then some 0 else (idxOfN rest x).map (· + 1)

/-- JS `arr.splice(k, 0, a)`: insert at index `k`, clamping to the end. -/
def spliceInsert (l : List NId) (k : Nat) (a : NId) : List NId :=
  l.take k ++ a :: l.drop k

/-- Length of the parent chain from `i` up to a parentless node (fuel-bounded);
`none` when the chain leaves the store or exceeds the fuel (a cycle). -/
def hops (s : Store) : Nat → NId → Option Nat
  | 0, _ => none
  | fuel + 1, i =>
    match getN s i with
    | none => none
    | some n =>
      match n.parent with
      | none => some 0
      | some p => (hops s fuel p).map (· + 1)

/-- The loop body of the source's `isDescendant`: walk the parent chain of the
current node, returning true when `anc` appears as a parent. -/
def isDescSteps (s : Store) (anc : NId) : Nat → Option Node → Bool
  | _, none => false
  | 0, some _ => false
  | fuel + 1, some cur =>
    match cur.parent with
    | none => false
    | some p => if p = anc then true else isDescSteps s anc fuel (getN s p)

/-- Source `isDescendant(nodes, nodeId, maybeAncestorId)`: true iff `nodeId`
is inside `maybeAncestorId`'s subtree (walks `nodeId`'s parent chain). -/
def isDescendant (s : Store) (fuel : Nat) (nodeId anc : NId) : Bool :=
  isDescSteps s anc fuel (getN s nodeId)

/-- `isDescendant(copy, over.parent, activeId)` where `over.parent` may be
null: `nodes[null]` is undefined, so the walk returns false immediately. -/
def isDescendantFromOpt (s : Store) (fuel : Nat) (start : Option NId) (anc : NId) : Bool :=
  match start with
  | none => false
  | some i => isDescendant s fuel i anc

/-- The subtree-collection loop of `removeSubtree`: a work queue seeded with
the target id; each processed folder enqueues its children.  The returned
list is the final content of the source's `stack`. -/
def bfs (s : Store) : Nat → List NId → List NId
  | _, [] => []
  | 0, _ :: _ => []
  | fuel + 1, i :: rest =>
    let extra : List NId :=
      match getN s i with
      | some n => if n.kind = Kind.folder then n.children else []
      | none => []
    i :: bfs s fuel (rest ++ extra)

/-- True when the work queue of `bfs` empties before the fuel runs out
(always the case on invariant-satisfying stores with fuel = store size). -/
def bfsOK (s : Store) : Nat → List NId → Bool
  | _, [] => true
  | 0, _ :: _ => false
  | fuel + 1, i :: rest =>
    let extra : List NId :=
      match getN s i with
      | some n => if n.kind = Kind.folder then n.children else []
      | none => []
    bfsOK s fuel (rest ++ extra)

/-- The character class of JS `String.prototype.trim` (ASCII part). -/
def jsWhitespace (c : Char) : Bool :=
  c = ' ' ∨ c = '\t' ∨ c = '\n' ∨ c = '\r' ∨ c = '\x0b' ∨ c = '\x0c'

/-- JS `name.trim()`: strip leading and trailing whitespace.  (Lean's own
`String.trim` is kernel-irreducible, so the JS operation is modelled
directly over the character list.) -/
def jsTrim (s : String) : String :=
  ⟨((s.data.dropWhile jsWhitespace).reverse.dropWhile jsWhitespace).reverse⟩

/-- Source `defaultState()`. -/
def defaultState : Store :=
  [(NId.root,
    { kind := Kind.folder, name := "PROJECT", parent := none,
      children := [], isOpen := true })]

/-- Source `addItem(kind, name, parentId)`; `newId` stands for the `uid()`
result.  Empty trimmed name or an absent/non-folder parent returns the
input store unchanged. -/
def addItem (s : Store) (kind : Kind) (name : String) (parentId : NId) (newId : NId) : Store :=
  let nm := jsTrim name
  if nm = "" then s
  else
    match getN s parentId with
    | none => s
    | some pn =>
      if pn.kind ≠ Kind.folder then s
      else
        let node : Node :=
          match kind with
          | Kind.folder => { kind := Kind.folder, name := nm, parent := some parentId,
                             children := [], isOpen := true }
          | Kind.file => { kind := Kind.file, name := nm, parent := some parentId,
                           children := [], isOpen := false }
        let s1 := setN s newId node
        let s2 := modifyN s1 parentId (fun n => { n with children := n.children ++ [newId] })
        modifyN s2 parentId (fun n => { n with isOpen := true })

/-- Core of the source's `saveRename`: trim, reject empty or missing id. -/
def rename (s : Store) (nodeId : NId) (newName : String) : Store :=
  let nm := jsTrim newName
  if nm = "" then s
  else
    match getN s nodeId with
    | none => s
    | some _ => modifyN s nodeId (fun n => { n with name := nm })

/-- Source `toggleFolder`: flip `isOpen` on a folder, no-op otherwise. -/
def toggleFolder (s : Store) (nodeId : NId) : Store :=
  match getN s nodeId with
  | some n => if n.kind = Kind.folder then modifyN s nodeId (fun m => { m with isOpen := !m.isOpen }) else s
  | none => s

/-- Source `removeSubtree(nodes, nodeId)`: collect the subtree stack, unlink
from the former parent, then delete every collected id except the root. -/
def removeSubtree (s : Store) (nodeId : NId) : Store :=
  let parentId : Option NId := (getN s nodeId).bind (·.parent)
  let stack := bfs s s.length [nodeId]
  let s1 :=
    match parentId with
    | some p =>
      match getN s p with
      | some pn =>
        if pn.kind = Kind.folder then
          modifyN s p (fun n => { n with children := removeAll n.children nodeId })
        else s
      | none => s
    | none => s
  stack.foldl (fun acc i => if i = NId.root then acc else eraseN acc i) s1

inductive Mode where
  | into : Mode
  | before : Mode
  | after : Mode
deriving DecidableEq, Repr

/-- Source `moveNode(nodes, activeId, overId, mode)`.  The fuel for the
internal `isDescendant` walks is the store size (sufficient on acyclic
stores, where the source's unbounded walk terminates). -/
def moveNode (s : Store) (activeId overId : NId) (mode : Mode) : Store :=
  match getN s activeId, getN s overId with
  | some active, some over =>
    if activeId = NId.root then s
    else if activeId = overId then s
    -- prevent moving folder into its own subtree (source lines 238-242)
    else if active.kind = Kind.folder ∧ mode = Mode.into ∧
        isDescendant s s.length overId activeId then s
    else if active.kind = Kind.folder ∧ (mode = Mode.before ∨ mode = Mode.after) ∧
        isDescendantFromOpt s s.length over.parent activeId then s
    else
      -- remove from old parent
      let s1 :=
        match active.parent with
        | some op =>
          match getN s op with
          | some opn =>
            if opn.kind = Kind.folder then
              modifyN s op (fun n => { n with children := removeAll n.children activeId })
            else s
          | none => s
        | none => s
      if mode = Mode.into then
        if over.kind ≠ Kind.folder then s
        else
          let s2 := modifyN s1 activeId (fun n => { n with parent := some overId })
          let s3 := modifyN s2 overId (fun n => { n with children := n.children ++ [activeId] })
          modifyN s3 overId (fun n => { n with isOpen := true })
      else
        let targetParentId := over.parent.getD NId.root
        match getN s1 targetParentId with
        | none => s
        | some tp =>
          if tp.kind ≠ Kind.folder then s
          else
            let s2 := modifyN s1 activeId (fun n => { n with parent := some targetParentId })
            let tChildren : List NId :=
              match getN s2 targetParentId with
              | some n => n.children
              | none => []
            -- `mode === "before" ? Math.max(0, idx) : idx + 1`, where JS
            -- `indexOf` yields -1 (here `none`) for an absent element
            let idx : Option Nat := idxOfN tChildren overId
            let insertAt : Nat :=
              if mode = Mode.before then idx.getD 0 else (idx.map (· + 1)).getD 0
            modifyN s2 targetParentId
              (fun n => { n with children := spliceInsert n.children insertAt activeId })
  | _, _ => s

/-- Source `setChildrenOrder(nodes, parentId, newOrder)`: the source writes
`copy[parentId].children = newOrder` without a guard, so an absent
`parentId` throws a TypeError, modelled by `none`. -/
def setChildrenOrder (s : Store) (parentId : NId) (newOrder : List NId) : Option Store :=
  match getN s parentId with
  | none => none
  | some _ => some (modifyN s parentId (fun n => { n with children := newOrder }))

/-- Nested JSON form `{name, kind, children?}`: folders carry a children
array, files do not (`toNested` omits it).  Payloads with `kind` absent are
treated as folders by the source, so they map onto the `folder` constructor. -/
inductive Nested where
  | folder : String → List Nested → Nested
  | file : String → Nested

mutual
def nsize : Nested → Nat
  | Nested.file _ => 1
  | Nested.folder _ cs => 1 + nsizeL cs
def nsizeL : List Nested → Nat
  | [] => 0
  | c :: rest => nsize c + nsizeL rest
end

/-- `c.name || "untitled"` / `nested?.name || "PROJECT"`: the empty string is
falsy in JS, so empty names are replaced by the default. -/
def nameOr (dflt : String) (name : String) : String :=
  if name = "" then dflt else name

/-- The ids `addChildrenB` assigns to the members of a sibling list when the
counter starts at `k` (each subtree consumes `nsize` many counter values). -/
def topIds : List Nested → Nat → List NId
  | [], _ => []
  | c :: rest, k => NId.gen k :: topIds rest (k + nsize c)

mutual
/-- One iteration of the source's `addChildren` forEach body: create the node
for `c` under `parentId`, push its id, recurse into its children.  The
counter `k` deterministically stands in for `uid()` outputs. -/
def addOneB : Nested → NId → Store → Nat → Store × Nat
  | Nested.folder name cs, parentId, s, k =>
    let i := NId.gen k
    let s1 := setN s i { kind := Kind.folder, name := nameOr "untitled" name,
                         parent := some parentId, children := [], isOpen := true }
    let s2 := modifyN s1 parentId (fun n => { n with children := n.children ++ [i] })
    addChildrenB cs i s2 (k + 1)
  | Nested.file name, parentId, s, k =>
    let i := NId.gen k
    let s1 := setN s i { kind := Kind.file, name := nameOr "untitled" name,
                         parent := some parentId, children := [], isOpen := false }
    (modifyN s1 parentId (fun n => { n with children := n.children ++ [i] }), k + 1)
def addChildrenB : List Nested → NId → Store → Nat → Store × Nat
  | [], _, s, k => (s, k)
  | c :: rest, parentId, s, k =>
    let r := addOneB c parentId s k
    addChildrenB rest parentId r.1 r.2
end

/-- Source `buildFromNested(nested)`: fresh store with the root named from
the payload (default "PROJECT"), children built recursively. -/
def buildFromNested (t : Nested) : Store :=
  let rootName := nameOr "PROJECT" (match t with | Nested.folder n _ => n | Nested.file n => n)
  let cs := match t with | Nested.folder _ cs => cs | Nested.file _ => []
  let s0 := modifyN defaultState NId.root (fun n => { n with name := rootName })
  (addChildrenB cs NId.root s0 0).1

/-- Source `toNested`, on a sibling list, fuel-bounded (the source recursion
terminates exactly on acyclic child structures). -/
def toNestedL (s : Store) : Nat → List NId → Option (List Nested)
  | _, [] => some []
  | 0, _ :: _ => none
  | fuel + 1, i :: rest =>
    match getN s i with
    | none => none
    | some n =>
      match n.kind with
      | Kind.file =>
        match toNestedL s fuel rest with
        | some tl => some (Nested.file n.name :: tl)
        | none => none
      | Kind.folder =>
        match toNestedL s fuel n.children, toNestedL s fuel rest with
        | some cs, some tl => some (Nested.folder n.name cs :: tl)
        | _, _ => none

/-- Source `toNested(nodes, rootId)`. -/
def toNested (s : Store) (fuel : Nat) (rootId : NId) : Option Nested :=
  match getN s rootId with
  | none => none
  | some n =>
    match n.kind with
    | Kind.file => some (Nested.file n.name)
    | Kind.folder => (toNestedL s fuel n.children).map (Nested.folder n.name)

/-- Source `unicodeTree`'s `walk`: one line per child with box-drawing
connectors, recursing into open-agnostic folder subtrees. -/
def unicodeWalk (s : Store) : Nat → String → List NId → List String
  | 0, _, _ => []
  | fuel + 1, pre, cids =>
    let len := cids.length
    ((cids.enum).map (fun ci =>
      match getN s ci.2 with
      | none => []
      | some child =>
        let isLast := ci.1 = len - 1
        let connector := if isLast then "└── " else "├── "
        let line := pre ++ connector ++ child.name
        let sub := if child.kind = Kind.folder then
            unicodeWalk s fuel (pre ++ (if isLast then "    " else "│   ")) child.children
          else []
        line :: sub)).flatten

/-- Source `unicodeTree(nodes, rootId)`: root as a bare name, then the walk. -/
def unicodeTree (s : Store) (fuel : Nat) (rootId : NId) : String :=
  match getN s rootId with
  | none => ""
  | some root =>
    String.intercalate "\n" (root.name :: unicodeWalk s fuel "" root.children)

/-- dnd-kit `arrayMove(array, from, to)` (used by the drag-drop same-parent
path): remove the element at `from`, reinsert it at `to`. -/
def arrayMove (l : List NId) (i j : Nat) : List NId :=
  match l.get? i with
  | none => l
  | some x => spliceInsert (l.take i ++ l.drop (i + 1)) j x

/-- Source `onDragEnd`'s mutation logic (lines 609-675): given the drop
gesture `(activeId, overId)` and the shift-modifier state, either move into
a folder or do a sibling placement before `overId` under `overId`'s parent
(with `arrayMove` smoothing for the same-parent case). -/
def onDragEnd (s : Store) (activeId overId : NId) (shift : Bool) : Store :=
  if activeId = overId then s
  else
    match getN s activeId, getN s overId with
    | some activeNode, some overNode =>
      let aParent := activeNode.parent.getD NId.root
      let oParent := overNode.parent.getD NId.root
      if overNode.kind = Kind.folder ∧ shift = false then
        moveNode s activeId overId Mode.into
      else
        match getN s aParent, getN s oParent with
        | some ap, some op =>
          if ap.kind ≠ Kind.folder ∨ op.kind ≠ Kind.folder then s
          else if activeNode.kind = Kind.folder ∧
              isDescendant s s.length oParent activeId then s
          else
            let s1 := modifyN s aParent
              (fun n => { n with children := removeAll n.children activeId })
            let opChildren : List NId :=
              match getN s1 oParent with
              | some n => n.children
              | none => []
            let insertAt : Nat := (idxOfN opChildren overId).getD 0
            let s2 := modifyN s1 activeId (fun n => { n with parent := some oParent })
            let s3 := modifyN s2 oParent
              (fun n => { n with children := spliceInsert n.children insertAt activeId })
            let s4 := modifyN s3 oParent (fun n => { n with isOpen := true })
            if aParent = oParent then
              let order : List NId :=
                match getN s4 oParent with
                | some n => n.children
                | none => []
              let from_ := (idxOfN order activeId).getD order.length
              modifyN s4 oParent (fun n => { n with children := arrayMove n.children from_ insertAt })
            else s4
        | _, _ => s
    | _, _ => s

/-- Import payloads, after `JSON.parse`, as the source's `importJsonFile`
branches on them: a flat `{root_id, nodes}` object (both fields truthy), a
nested object whose `kind` is "folder" or absent, or anything else. -/
inductive ImportPayload where
  | flat : NId → Store → ImportPayload
  | nested : Nested → ImportPayload
  | other : ImportPayload

/-- The state decision of `importJsonFile` (source lines 736-769): `.ok` is
the store installed by `setNodes`, `.error` the `alert`ed message; the
current store is untouched in the error case.  The flat branch installs
`data.nodes` without any validation of `root_id`. -/
def importJson (_current : Store) : ImportPayload → Except String Store
  | ImportPayload.flat _ ns => Except.ok ns
  | ImportPayload.nested t =>
    match t with
    | Nested.folder _ _ => Except.ok (buildFromNested t)
    | Nested.file _ => Except.error "Unrecognized JSON format."
  | ImportPayload.other => Except.error "Unrecognized JSON format."

/-- Per-node structural invariant (spec section 3): a parentless node is the
root and vice versa; a non-root node's parent is a folder whose children
list contains the node exactly once; a folder's children all exist and point
back to it; files are childless; the parent chain reaches the root within
store-size steps (acyclicity). -/
def nodeWfB (s : Store) (i : NId) (n : Node) : Bool :=
  (match n.parent with
   | none => decide (i = NId.root)
   | some p =>
     decide ¬(i = NId.root) &&
     (match getN s p with
      | some pn => decide (pn.kind = Kind.folder) && decide (pn.children.count i = 1)
      | none => false)) &&
  (match n.kind with
   | Kind.folder => n.children.all (fun c =>
       match getN s c with
       | some cn => decide (cn.parent = some i)
       | none => false)
   | Kind.file => n.children.isEmpty) &&
  (hops s s.length i).isSome

/-- Store-level structural invariant: unique keys, a folder root, and every
entry node-wellformed. -/
def wfB (s : Store) : Bool :=
  decide (keys s).Nodup &&
  (match getN s NId.root with
   | some r => decide (r.kind = Kind.folder) && decide (r.parent = none)
   | none => false) &&
  s.all (fun kv => nodeWfB s kv.1 kv.2)

def WF (s : Store) : Prop := wfB s = true

instance (s : Store) : Decidable (WF s) := by
  unfold WF; infer_instance

theorem getN_mem {s : Store} {i : NId} {n : Node} (h : getN s i = some n) : (i, n) ∈ s := by
  induction s with
  | nil => simp [getN] at h
  | cons kv rest ih =>
    by_cases hk : kv.1 = i
    · simp [getN, hk] at h
      have : kv = (i, n) := by cases kv; simp_all
      rw [this] at *
      exact List.mem_cons_self _ _
    · simp [getN, hk] at h
      exact List.mem_cons_of_mem _ (ih h)

theorem mem_getN {s : Store} (hnd : (keys s).Nodup) {i : NId} {n : Node}
    (h : (i, n) ∈ s) : getN s i = some n := by
  induction s with
  | nil => simp at h
  | cons kv rest ih =>
    simp only [keys, List.map_cons, List.nodup_cons] at hnd
    rcases List.mem_cons.mp h with h1 | h1
    · rw [← h1]
      simp [getN]
    · have hne : ¬ kv.1 = i := by
        intro he
        exact hnd.1 (he ▸ (List.mem_map.mpr ⟨(i, n), h1, rfl⟩))
      simpa [getN, hne] using ih hnd.2 h1

theorem getN_isSome_iff {s : Store} {i : NId} : (getN s i).isSome ↔ i ∈ keys s := by
  induction s with
  | nil => simp [getN, keys]
  | cons kv rest ih =>
    by_cases hk : kv.1 = i
    · simp [getN, hk, keys, List.mem_map]
    · simp only [getN, if_neg hk, keys, List.map_cons, List.mem_cons]
      rw [show (keys rest = List.map Prod.fst rest) from rfl] at ih
      rw [ih]
      constructor
      · exact fun h => Or.inr h
      · intro h
        rcases h with h | h
        · exact absurd h.symm hk
        · exact h

theorem getN_eq_none_iff {s : Store} {i : NId} : getN s i = none ↔ ¬ i ∈ keys s := by
  rw [← getN_isSome_iff]
  cases getN s i <;> simp

theorem getN_modifyN (s : Store) (i : NId) (f : Node → Node) (j : NId) :
    getN (modifyN s i f) j = if j = i then (getN s j).map f else getN s j := by
  induction s with
  | nil => simp [getN, modifyN]
  | cons kv rest ih =>
    obtain ⟨k, v⟩ := kv
    by_cases hk : k = i <;> by_cases hj : k = j <;>
      simp_all [modifyN, getN] <;> by_cases hji : j = i <;> simp_all

theorem getN_setN (s : Store) (i : NId) (v : Node) (j : NId) :
    getN (setN s i v) j = if j = i then some v else getN s j := by
  induction s with
  | nil =>
    by_cases hj : j = i
    · simp [setN, getN, hj]
    · have hij : ¬ i = j := fun h => hj h.symm
      simp [setN, getN, hj, hij]
  | cons kv rest ih =>
    obtain ⟨k, w⟩ := kv
    by_cases hk : k = i <;> by_cases hj : k = j <;>
      simp_all [setN, getN] <;> by_cases hji : j = i <;> simp_all

theorem getN_eraseN (s : Store) (i : NId) (j : NId) :
    getN (eraseN s i) j = if j = i then none else getN s j := by
  induction s with
  | nil => simp [eraseN, getN]
  | cons kv rest ih =>
    obtain ⟨k, w⟩ := kv
    by_cases hk : k = i <;> by_cases hj : k = j <;>
      simp_all [eraseN, getN, List.filter] <;> by_cases hji : j = i <;> simp_all

theorem keys_modifyN (s : Store) (i : NId) (f : Node → Node) :
    keys (modifyN s i f) = keys s := by
  induction s with
  | nil => rfl
  | cons kv rest ih =>
    by_cases hk : kv.1 = i <;> simp_all [modifyN, keys]

theorem length_modifyN (s : Store) (i : NId) (f : Node → Node) :
    (modifyN s i f).length = s.length := by
  simp [modifyN]

/-- The deletion loop of `removeSubtree`, characterised pointwise. -/
theorem getN_foldl_erase (stack : List NId) (s : Store) (j : NId) :
    getN (stack.foldl (fun acc i => if i = NId.root then acc else eraseN acc i) s) j =
      if j ∈ stack ∧ ¬ j = NId.root then none else getN s j := by
  induction stack generalizing s with
  | nil => simp
  | cons a rest ih =>
    simp only [List.foldl_cons]
    by_cases ha : a = NId.root
    · rw [if_pos ha, ih]
      by_cases hj : j ∈ rest ∧ ¬ j = NId.root
      · rw [if_pos hj, if_pos ⟨List.mem_cons_of_mem _ hj.1, hj.2⟩]
      · rw [if_neg hj]
        by_cases hj2 : j ∈ a :: rest ∧ ¬ j = NId.root
        · rcases List.mem_cons.mp hj2.1 with h | h
          · exact absurd (h ▸ ha) hj2.2
          · exact absurd ⟨h, hj2.2⟩ hj
        · rw [if_neg hj2]
    · rw [if_neg ha, ih]
      by_cases hj : j ∈ rest ∧ ¬ j = NId.root
      · rw [if_pos hj, if_pos ⟨List.mem_cons_of_mem _ hj.1, hj.2⟩]
      · rw [if_neg hj, getN_eraseN]
        by_cases hja : j = a
        · rw [if_pos hja, if_pos ⟨List.mem_cons.mpr (Or.inl hja), hja ▸ ha⟩]
        · rw [if_neg hja]
          by_cases hj2 : j ∈ a :: rest ∧ ¬ j = NId.root
          · rcases List.mem_cons.mp hj2.1 with h | h
            · exact absurd h hja
            · exact absurd ⟨h, hj2.2⟩ hj
          · rw [if_neg hj2]

theorem removeAll_eq_filter (l : List NId) (x : NId) :
    removeAll l x = l.filter (fun c => decide ¬(c = x)) := by
  induction l with
  | nil => rfl
  | cons c rest ih =>
    by_cases hc : c = x <;> simp_all [removeAll, List.filter]

theorem mem_removeAll {l : List NId} {x c : NId} :
    c ∈ removeAll l x ↔ c ∈ l ∧ ¬ c = x := by
  rw [removeAll_eq_filter]
  simp

theorem count_removeAll (l : List NId) (x c : NId) :
    (removeAll l x).count c = if c = x then 0 else l.count c := by
  rw [removeAll_eq_filter]
  by_cases hc : c = x
  · subst hc
    rw [if_pos rfl, List.count_eq_zero]
    intro hmem
    simp at hmem
  · rw [if_neg hc]
    induction l with
    | nil => rfl
    | cons a rest ih =>
      by_cases ha : a = x <;> by_cases hac : a = c <;>
        simp_all [List.filter, List.count_cons]

theorem count_spliceInsert (l : List NId) (k : Nat) (a c : NId) :
    (spliceInsert l k a).count c = l.count c + if c = a then 1 else 0 := by
  have hsplit : l.count c = (l.take k).count c + (l.drop k).count c := by
    conv_lhs => rw [← List.take_append_drop k l]
    rw [List.count_append]
  unfold spliceInsert
  by_cases hc : c = a
  · subst hc
    rw [hsplit, List.count_append, List.count_cons]
    simp
    omega
  · rw [hsplit, List.count_append, List.count_cons]
    simp [hc]
    intro h
    exact absurd h.symm hc

theorem mem_spliceInsert {l : List NId} {k : Nat} {a c : NId} :
    c ∈ spliceInsert l k a ↔ c ∈ l ∨ c = a := by
  unfold spliceInsert
  constructor
  · intro h
    rcases List.mem_append.mp h with h | h
    · exact Or.inl (List.mem_of_mem_take h)
    · rcases List.mem_cons.mp h with h | h
      · exact Or.inr h
      · exact Or.inl (List.mem_of_mem_drop h)
  · intro h
    rcases h with h | h
    · conv at h => rw [← List.take_append_drop k l]
      rcases List.mem_append.mp h with h | h
      · exact List.mem_append.mpr (Or.inl h)
      · exact List.mem_append.mpr (Or.inr (List.mem_cons_of_mem _ h))
    · exact List.mem_append.mpr (Or.inr (List.mem_cons.mpr (Or.inl h)))

theorem idxOfN_eq_none_iff {l : List NId} {x : NId} :
    idxOfN l x = none ↔ ¬ x ∈ l := by
  induction l with
  | nil => simp [idxOfN]
  | cons c rest ih =>
    by_cases hc : c = x
    · simp [idxOfN, hc]
    · have hcx : ¬ x = c := fun h => hc h.symm
      simp [idxOfN, hc, hcx, ih]

theorem wf_nodup {s : Store} (h : WF s) : (keys s).Nodup := by
  unfold WF wfB at h
  simp only [Bool.and_eq_true, decide_eq_true_eq] at h
  exact h.1.1

theorem wf_node {s : Store} (h : WF s) {i : NId} {n : Node}
    (hg : getN s i = some n) : nodeWfB s i n = true := by
  unfold WF wfB at h
  simp only [Bool.and_eq_true, decide_eq_true_eq, List.all_eq_true] at h
  exact h.2 (i, n) (getN_mem hg)

theorem wf_root {s : Store} (h : WF s) :
    ∃ r, getN s NId.root = some r ∧ r.kind = Kind.folder ∧ r.parent = none := by
  unfold WF wfB at h
  simp only [Bool.and_eq_true, decide_eq_true_eq] at h
  have h2 := h.1.2
  cases hg : getN s NId.root with
  | none => rw [hg] at h2; simp at h2
  | some r =>
    rw [hg] at h2
    simp only [Bool.and_eq_true, decide_eq_true_eq] at h2
    exact ⟨r, rfl, h2.1, h2.2⟩

theorem wf_parent_none_iff {s : Store} (h : WF s) {i : NId} {n : Node}
    (hg : getN s i = some n) : n.parent = none ↔ i = NId.root := by
  have hn := wf_node h hg
  unfold nodeWfB at hn
  simp only [Bool.and_eq_true] at hn
  constructor
  · intro hp
    rw [hp] at hn
    simpa using hn.1.1
  · intro hi
    subst hi
    rcases wf_root h with ⟨r, hr, _, hrp⟩
    rw [hg] at hr
    injection hr with hr
    rw [← hr] at hrp
    exact hrp

theorem wf_parent {s : Store} (h : WF s) {i : NId} {n : Node} {p : NId}
    (hg : getN s i = some n) (hp : n.parent = some p) :
    ¬ i = NId.root ∧
      ∃ pn, getN s p = some pn ∧ pn.kind = Kind.folder ∧ pn.children.count i = 1 := by
  have hn := wf_node h hg
  unfold nodeWfB at hn
  rw [hp] at hn
  simp only [Bool.and_eq_true, decide_eq_true_eq] at hn
  refine ⟨hn.1.1.1, ?_⟩
  have h2 := hn.1.1.2
  cases hgp : getN s p with
  | none => rw [hgp] at h2; simp at h2
  | some pn =>
    rw [hgp] at h2
    simp only [Bool.and_eq_true, decide_eq_true_eq] at h2
    exact ⟨pn, rfl, h2.1, h2.2⟩

theorem wf_children {s : Store} (h : WF s) {i : NId} {n : Node} {c : NId}
    (hg : getN s i = some n) (hk : n.kind = Kind.folder) (hc : c ∈ n.children) :
    ∃ cn, getN s c = some cn ∧ cn.parent = some i := by
  have hn := wf_node h hg
  unfold nodeWfB at hn
  rw [hk] at hn
  simp only [Bool.and_eq_true, List.all_eq_true] at hn
  have h2 := hn.1.2 c hc
  cases hgc : getN s c with
  | none => rw [hgc] at h2; simp at h2
  | some cn =>
    rw [hgc] at h2
    simp only [decide_eq_true_eq] at h2
    exact ⟨cn, rfl, h2⟩

theorem wf_file_leaf {s : Store} (h : WF s) {i : NId} {n : Node}
    (hg : getN s i = some n) (hk : n.kind = Kind.file) : n.children = [] := by
  have hn := wf_node h hg
  unfold nodeWfB at hn
  rw [hk] at hn
  simp only [Bool.and_eq_true, List.isEmpty_iff] at hn
  exact hn.1.2

theorem wf_hops {s : Store} (h : WF s) {i : NId} {n : Node}
    (hg : getN s i = some n) : (hops s s.length i).isSome := by
  have hn := wf_node h hg
  unfold nodeWfB at hn
  simp only [Bool.and_eq_true] at hn
  exact hn.2

theorem hops_mono {s : Store} {f : Nat} {i : NId} {d : Nat}
    (h : hops s f i = some d) : ∀ {f' : Nat}, f ≤ f' → hops s f' i = some d := by
  induction f generalizing i d with
  | zero => simp [hops] at h
  | succ f ih =>
    intro f' hf
    obtain ⟨f'', rfl⟩ : ∃ f'', f' = f'' + 1 := ⟨f' - 1, by omega⟩
    cases hg : getN s i with
    | none => simp only [hops, hg] at h; exact absurd h (by simp)
    | some n =>
      cases hp : n.parent with
      | none =>
        simp only [hops, hg, hp] at h ⊢
        exact h
      | some p =>
        simp only [hops, hg, hp] at h ⊢
        cases hrec : hops s f p with
        | none => rw [hrec] at h; simp at h
        | some dp =>
          rw [hrec] at h
          rw [ih hrec (by omega)]
          exact h

theorem depth_child {s : Store} (hwf : WF s) {c : NId} {cn : Node} {p : NId}
    (hg : getN s c = some cn) (hp : cn.parent = some p) :
    ∃ dp, hops s s.length p = some dp ∧ hops s s.length c = some (dp + 1) := by
  have hsome := wf_hops hwf hg
  rw [Option.isSome_iff_exists] at hsome
  obtain ⟨d, hd⟩ := hsome
  have hlen : 1 ≤ s.length := by
    have := getN_mem hg
    cases s with
    | nil => simp at this
    | cons a l => simp
  obtain ⟨F, hF⟩ : ∃ F, s.length = F + 1 := ⟨s.length - 1, by omega⟩
  rw [hF] at hd
  simp only [hops, hg, hp] at hd
  cases hrec : hops s F p with
  | none => rw [hrec] at hd; simp at hd
  | some dp =>
    rw [hrec] at hd
    simp only [Option.map_some'] at hd
    injection hd with hd
    refine ⟨dp, hops_mono hrec (by omega), ?_⟩
    rw [hF]
    simp only [hops, hg, hp, hrec]
    rfl

theorem wf_no_self_parent {s : Store} (hwf : WF s) {i : NId} {n : Node}
    (hg : getN s i = some n) : ¬ n.parent = some i := by
  intro hp
  obtain ⟨dp, hdp, hdc⟩ := depth_child hwf hg hp
  rw [hdp] at hdc
  injection hdc with hdc
  omega

theorem isDescSteps_depth {s : Store} (hwf : WF s) {anc : NId} :
    ∀ (f : Nat) (x : NId) (n : Node), getN s x = some n →
    isDescSteps s anc f (some n) = true →
    ∀ dx, hops s s.length x = some dx →
    ∃ da, hops s s.length anc = some da ∧ da < dx := by
  intro f
  induction f with
  | zero => intro x n _ h; simp [isDescSteps] at h
  | succ f ih =>
    intro x n hg h dx hdx
    simp only [isDescSteps] at h
    cases hp : n.parent with
    | none => simp [hp] at h
    | some p =>
      simp only [hp] at h
      obtain ⟨dp, hdp, hdc⟩ := depth_child hwf hg hp
      rw [hdx] at hdc
      injection hdc with hdc
      by_cases hpa : p = anc
      · subst hpa
        exact ⟨dp, hdp, by omega⟩
      · rw [if_neg hpa] at h
        obtain ⟨_, pn, hgp, _, _⟩ := wf_parent hwf hg hp
        rw [hgp] at h
        obtain ⟨da, hda, hlt⟩ := ih p pn hgp h dp hdp
        exact ⟨da, hda, by omega⟩

/-- On a wellformed store, a node is never reported as a descendant of its
own parent-chain child: used to discharge the cycle guard in `moveNode`. -/
theorem isDescendant_of_parent_false {s : Store} (hwf : WF s) {c : NId} {cn : Node} {p : NId}
    (hg : getN s c = some cn) (hp : cn.parent = some p) (f : Nat) :
    isDescendant s f p c = false := by
  by_contra h
  rw [Bool.not_eq_false] at h
  unfold isDescendant at h
  obtain ⟨_, pn, hgp, _, _⟩ := wf_parent hwf hg hp
  rw [hgp] at h
  obtain ⟨dp, hdp, hdc⟩ := depth_child hwf hg hp
  obtain ⟨da, hda, hlt⟩ := isDescSteps_depth hwf f p pn hgp h dp hdp
  rw [hda] at hdc
  injection hdc with hdc
  omega

theorem eraseN_of_absent {s : Store} {i : NId} (h : getN s i = none) : eraseN s i = s := by
  rw [getN_eq_none_iff] at h
  unfold eraseN
  apply List.filter_eq_self.mpr
  intro kv hkv
  simp only [decide_eq_true_eq]
  intro he
  exact h (he ▸ List.mem_map.mpr ⟨kv, hkv, rfl⟩)

/-- A store used in several concrete counterexamples: a root folder holding
folder "a" (id `gen 0`), which holds file "b" (id `gen 1`). -/
def sampleAB : Store :=
  [(NId.root, { kind := Kind.folder, name := "PROJECT", parent := none,
                children := [NId.gen 0], isOpen := true }),
   (NId.gen 0, { kind := Kind.folder, name := "a", parent := some NId.root,
                 children := [NId.gen 1], isOpen := true }),
   (NId.gen 1, { kind := Kind.file, name := "b", parent := some (NId.gen 0),
                 children := [], isOpen := false })]

/-- A root folder holding a single file "f" (id `gen 0`). -/
def sampleRF : Store :=
  [(NId.root, { kind := Kind.folder, name := "PROJECT", parent := none,
                children := [NId.gen 0], isOpen := true }),
   (NId.gen 0, { kind := Kind.file, name := "f", parent := some NId.root,
                 children := [], isOpen := false })]

/-- Claim C1 (code bug): on the invariant-satisfying store `sampleAB`, a
sibling move of folder "a" before its own child "b" is a destination inside
"a"'s own subtree, so the claim (and the source's own cycle-prevention
comment) requires a no-op; instead the code reparents "a" under itself,
making it its own parent, its own child, and its own descendant. -/
theorem C1_sibling_move_onto_own_child_creates_cycle :
    WF sampleAB ∧
    moveNode sampleAB (NId.gen 0) (NId.gen 1) Mode.before ≠ sampleAB ∧
    getN (moveNode sampleAB (NId.gen 0) (NId.gen 1) Mode.before) (NId.gen 0) =
      some { kind := Kind.folder, name := "a", parent := some (NId.gen 0),
             children := [NId.gen 0, NId.gen 1], isOpen := true } ∧
    isDescendant (moveNode sampleAB (NId.gen 0) (NId.gen 1) Mode.before)
      (moveNode sampleAB (NId.gen 0) (NId.gen 1) Mode.before).length
      (NId.gen 0) (NId.gen 0) = true := by
  refine ⟨by decide, by decide, by decide, by decide⟩

/-- Claim C2 counterexample: `removeSubtree(store, rootId)` is not a no-op on
a store where the root has a child — the child is deleted (and the root's
children list is left dangling), so the result differs from the input. -/
theorem C2_counterexample_removeSubtree_root :
    WF sampleRF ∧ removeSubtree sampleRF NId.root ≠ sampleRF := by
  refine ⟨by decide, by decide⟩

/-- Claim C3 (code bug): the flat import branch installs `data.nodes` without
checking that `root_id` is a key of it.  With the payload
`{root_id: "root", nodes: {}}` the import succeeds (no error is reported)
and replaces the current store with the empty mapping, in which the declared
root id is dangling. -/
theorem C3_flat_import_installs_dangling_root :
    importJson defaultState (ImportPayload.flat NId.root []) = Except.ok [] ∧
    ¬ NId.root ∈ keys ([] : Store) ∧
    ([] : Store) ≠ defaultState := by
  refine ⟨rfl, by decide, by decide⟩

/-- Claim C4 counterexample: `setChildrenOrder` with a `parentId` absent from
the store throws a TypeError (modelled `none`) instead of returning the
input store, so the claimed totality of all six mutators fails. -/
theorem C4_counterexample_setChildrenOrder_throws :
    setChildrenOrder defaultState (NId.gen 0) [] = none := by
  decide

/-- Claim C5 counterexample: a single `RemoveSubtree(store, rootId)` on the
invariant-satisfying store `sampleRF` yields a store violating bidirectional
consistency: the root folder still lists child `gen 0`, but no node `gen 0`
exists any more. -/
theorem C5_counterexample_removeSubtree_root_breaks_bidir :
    WF sampleRF ∧
    (∃ r, getN (removeSubtree sampleRF NId.root) NId.root = some r ∧
       NId.gen 0 ∈ r.children) ∧
    getN (removeSubtree sampleRF NId.root) (NId.gen 0) = none := by
  refine ⟨by decide, ⟨⟨Kind.folder, "PROJECT", none, [NId.gen 0], true⟩, by decide, by decide⟩, by decide⟩

/-- A wellformed store whose root has the empty string as its name (the
structural invariants do not constrain names; the root-name input box and
imports can produce this state). -/
def emptyNameRoot : Store :=
  [(NId.root, { kind := Kind.folder, name := "", parent := none, children := [], isOpen := true })]

/-- Claim C6 counterexample: the nested round-trip does not preserve names
that are empty strings — `buildFromNested` replaces a falsy root name by
"PROJECT" (and falsy child names by "untitled"), so `FromNested(ToNested(s))`
of a wellformed store whose root is named "" yields a tree with a different
name, not an isomorphic one. -/
theorem C6_counterexample_empty_name_not_preserved :
    WF emptyNameRoot ∧
    toNested emptyNameRoot 1 NId.root = some (Nested.folder "" []) ∧
    toNested (buildFromNested (Nested.folder "" [])) 1 NId.root =
      some (Nested.folder "PROJECT" []) ∧
    Nested.folder "PROJECT" ([] : List Nested) ≠ Nested.folder "" [] := by
  refine ⟨by decide, rfl, rfl, ?_⟩
  intro h
  injection h with h1 h2
  exact absurd h1 (by decide)

theorem removeSubtree_absent {s : Store} {i : NId} (h : getN s i = none) :
    removeSubtree s i = s := by
  unfold removeSubtree
  rw [h]
  simp only [Option.none_bind]
  have hstack : ∀ fuel, bfs s fuel [i] = [] ∨ bfs s fuel [i] = [i] := by
    intro fuel
    cases fuel with
    | zero => left; rfl
    | succ f =>
      right
      simp only [bfs, h, List.nil_append]
  rcases hstack s.length with hs | hs <;> rw [hs]
  · rfl
  · simp only [List.foldl_cons, List.foldl_nil]
    by_cases hr : i = NId.root
    · rw [if_pos hr]
    · rw [if_neg hr, eraseN_of_absent h]

theorem moveNode_noop {s : Store} {a o : NId} {m : Mode}
    (h : getN s a = none ∨ getN s o = none ∨ a = NId.root ∨ a = o) :
    moveNode s a o m = s := by
  cases hga : getN s a with
  | none =>
    simp only [moveNode, hga]
  | some na =>
    cases hgo : getN s o with
    | none => simp only [moveNode, hga, hgo]
    | some no =>
      rcases h with h | h | h | h
      · rw [hga] at h; exact absurd h (by simp)
      · rw [hgo] at h; exact absurd h (by simp)
      · simp only [moveNode, hga, hgo, if_pos h]
      · simp only [moveNode, hga, hgo]
        by_cases hr : a = NId.root
        · rw [if_pos hr]
        · rw [if_neg hr, if_pos h]

/-- Claim C4 (amended): `AddNode`, `RemoveSubtree`, `Rename`, `ToggleOpen`
and `Move` never throw and return the input store unchanged on their illegal
inputs (empty trimmed name, absent ids, non-folder parent, root/self moves);
`ReorderChildren` is the exception: it succeeds exactly when `parentId` is
present in the store and throws a TypeError (modelled `none`) otherwise. -/
theorem C4_mutators_total_except_reorder :
    (∀ (s : Store) (k : Kind) (nm : String) (pid newId : NId),
        jsTrim nm = "" → addItem s k nm pid newId = s) ∧
    (∀ (s : Store) (k : Kind) (nm : String) (pid newId : NId),
        getN s pid = none → addItem s k nm pid newId = s) ∧
    (∀ (s : Store) (k : Kind) (nm : String) (pid newId : NId) (pn : Node),
        getN s pid = some pn → ¬ pn.kind = Kind.folder → addItem s k nm pid newId = s) ∧
    (∀ (s : Store) (i : NId) (nm : String), jsTrim nm = "" → rename s i nm = s) ∧
    (∀ (s : Store) (i : NId) (nm : String), getN s i = none → rename s i nm = s) ∧
    (∀ (s : Store) (i : NId), getN s i = none → toggleFolder s i = s) ∧
    (∀ (s : Store) (i : NId) (n : Node),
        getN s i = some n → n.kind = Kind.file → toggleFolder s i = s) ∧
    (∀ (s : Store) (i : NId), getN s i = none → removeSubtree s i = s) ∧
    (∀ (s : Store) (a o : NId) (m : Mode),
        getN s a = none ∨ getN s o = none ∨ a = NId.root ∨ a = o → moveNode s a o m = s) ∧
    (∀ (s : Store) (pid : NId) (ord : List NId),
        (setChildrenOrder s pid ord).isSome ↔ ¬ getN s pid = none) := by
  refine ⟨?_, ?_, ?_, ?_, ?_, ?_, ?_, ?_, ?_, ?_⟩
  · intro s k nm pid newId h
    unfold addItem
    rw [if_pos h]
  · intro s k nm pid newId h
    unfold addItem
    by_cases ht : jsTrim nm = ""
    · rw [if_pos ht]
    · rw [if_neg ht, h]
  · intro s k nm pid newId pn hg hk
    unfold addItem
    by_cases ht : jsTrim nm = ""
    · rw [if_pos ht]
    · rw [if_neg ht, hg]
      simp only [ne_eq, hk, not_false_eq_true, if_pos]
  · intro s i nm h
    unfold rename
    rw [if_pos h]
  · intro s i nm h
    unfold rename
    by_cases ht : jsTrim nm = ""
    · rw [if_pos ht]
    · rw [if_neg ht, h]
  · intro s i h
    unfold toggleFolder
    rw [h]
  · intro s i n hg hk
    simp only [toggleFolder, hg, hk]
    simp
  · intro s i h
    exact removeSubtree_absent h
  · intro s a o m h
    exact moveNode_noop h
  · intro s pid ord
    cases hg : getN s pid with
    | none => simp [setChildrenOrder, hg]
    | some pn => simp [setChildrenOrder, hg]

/-- Witness for C4: the no-op/totality facts at concrete inputs. -/
theorem C4_mutators_total_except_reorder_witness :
    addItem defaultState Kind.folder "   " NId.root (NId.gen 0) = defaultState ∧
    addItem defaultState Kind.folder "x" (NId.gen 7) (NId.gen 0) = defaultState ∧
    rename defaultState (NId.gen 0) "x" = defaultState ∧
    toggleFolder defaultState (NId.gen 3) = defaultState ∧
    removeSubtree defaultState (NId.gen 3) = defaultState ∧
    moveNode defaultState NId.root (NId.gen 1) Mode.into = defaultState ∧
    (setChildrenOrder defaultState NId.root []).isSome := by
  have h := C4_mutators_total_except_reorder
  refine ⟨h.1 _ _ _ _ _ (by decide), h.2.1 _ _ _ _ _ (by decide),
          h.2.2.2.2.1 _ _ _ (by decide), h.2.2.2.2.2.1 _ _ (by decide),
          h.2.2.2.2.2.2.2.1 _ _ (by decide),
          h.2.2.2.2.2.2.2.2.1 _ _ _ _ (Or.inr (Or.inr (Or.inl rfl))),
          (h.2.2.2.2.2.2.2.2.2 _ _ []).mpr (by decide)⟩

/-- Claim C8: from `defaultState()` (root only, named "PROJECT"), adding
folder "src" under the root and then file "index.js" under the new src id
(any two distinct generated ids standing for the `uid()` results), the
connector-tree rendering is exactly the three expected lines joined by
newlines, with the root bare and terminal connectors for single last
children. -/
theorem C8_connector_tree_scenario (i j : Nat) (hij : ¬ i = j) :
    unicodeTree
      (addItem (addItem defaultState Kind.folder "src" NId.root (NId.gen i))
        Kind.file "index.js" (NId.gen i) (NId.gen j))
      (addItem (addItem defaultState Kind.folder "src" NId.root (NId.gen i))
        Kind.file "index.js" (NId.gen i) (NId.gen j)).length
      NId.root = "PROJECT\n└── src\n    └── index.js" := by
  have e1 : ¬ (jsTrim "src" = "") := by decide
  have e2 : ¬ (jsTrim "index.js" = "") := by decide
  have e3 : jsTrim "src" = "src" := by decide
  have e4 : jsTrim "index.js" = "index.js" := by decide
  have hji : ¬ j = i := fun h => hij h.symm
  have hijn : ¬ (NId.gen i = NId.gen j) := by simp [hij]
  have h1 : addItem defaultState Kind.folder "src" NId.root (NId.gen i) =
      [(NId.root, ⟨Kind.folder, "PROJECT", none, [NId.gen i], true⟩),
       (NId.gen i, ⟨Kind.folder, "src", some NId.root, [], true⟩)] := by
    simp [addItem, e1, e3, defaultState, getN, setN, modifyN]
  rw [h1]
  have h2 : addItem
      [(NId.root, (⟨Kind.folder, "PROJECT", none, [NId.gen i], true⟩ : Node)),
       (NId.gen i, ⟨Kind.folder, "src", some NId.root, [], true⟩)]
      Kind.file "index.js" (NId.gen i) (NId.gen j) =
      [(NId.root, ⟨Kind.folder, "PROJECT", none, [NId.gen i], true⟩),
       (NId.gen i, ⟨Kind.folder, "src", some NId.root, [NId.gen j], true⟩),
       (NId.gen j, ⟨Kind.file, "index.js", some (NId.gen i), [], false⟩)] := by
    simp [addItem, e2, e4, getN, setN, modifyN, hijn, hij, hji]
  rw [h2]
  have hroot_i : ¬ (NId.root = NId.gen i) := by simp
  have hroot_j : ¬ (NId.root = NId.gen j) := by simp
  have hij2 : ¬ (NId.gen j = NId.gen i) := by simp [hji]
  simp [unicodeTree, unicodeWalk, getN, hroot_i, hroot_j, hij2, hijn, hij, hji,
    List.enum, List.enumFrom]
  decide

/-- Witness for C8 at the concrete generated ids 0 and 1. -/
theorem C8_connector_tree_scenario_witness :
    unicodeTree
      (addItem (addItem defaultState Kind.folder "src" NId.root (NId.gen 0))
        Kind.file "index.js" (NId.gen 0) (NId.gen 1))
      (addItem (addItem defaultState Kind.folder "src" NId.root (NId.gen 0))
        Kind.file "index.js" (NId.gen 0) (NId.gen 1)).length
      NId.root = "PROJECT\n└── src\n    └── index.js" :=
  C8_connector_tree_scenario 0 1 (by decide)

theorem removeAll_of_not_mem {l : List NId} {x : NId} (h : ¬ x ∈ l) : removeAll l x = l := by
  induction l with
  | nil => rfl
  | cons c rest ih =>
    have hc : ¬ c = x := fun he => h (he ▸ List.mem_cons_self c rest)
    have hr : ¬ x ∈ rest := fun hm => h (List.mem_cons_of_mem _ hm)
    simp [removeAll, hc, ih hr]

theorem spliceInsert_zero (l : List NId) (a : NId) : spliceInsert l 0 a = a :: l := by
  simp [spliceInsert]

/-- The root id never appears in any folder's children list. -/
theorem wf_root_not_child {s : Store} (hwf : WF s) {i : NId} {n : Node}
    (hg : getN s i = some n) (hk : n.kind = Kind.folder) : ¬ NId.root ∈ n.children := by
  intro hmem
  obtain ⟨cn, hgc, hcp⟩ := wf_children hwf hg hk hmem
  obtain ⟨r, hr, _, hrp⟩ := wf_root hwf
  rw [hr] at hgc
  injection hgc with he
  rw [he] at hrp
  rw [hrp] at hcp
  exact Option.noConfusion hcp

/-- A non-root node has a parent, which is a folder containing it once. -/
theorem wf_parent_of_ne_root {s : Store} (hwf : WF s) {i : NId} {n : Node}
    (hg : getN s i = some n) (hne : ¬ i = NId.root) :
    ∃ p pn, n.parent = some p ∧ getN s p = some pn ∧ pn.kind = Kind.folder ∧
      pn.children.count i = 1 := by
  cases hp : n.parent with
  | none => exact absurd ((wf_parent_none_iff hwf hg).mp hp) hne
  | some p =>
    obtain ⟨_, pn, hgp, hpk, hpc⟩ := wf_parent hwf hg hp
    exact ⟨p, pn, rfl, hgp, hpk, hpc⟩

/-- Claim C9: a sibling move (`Before` or `After`) targeting the root is
accepted, reparents `activeId` to the root and places it at index 0 of the
root's children — the root is not in its own children list, so the computed
JS index is -1 and both modes insert at the front. -/
theorem C9_sibling_move_to_root_inserts_at_front {s : Store} (hwf : WF s) {a : NId} {na : Node}
    (hga : getN s a = some na) (hra : ¬ a = NId.root)
    {m : Mode} (hm : m = Mode.before ∨ m = Mode.after) :
    ∃ r, getN s NId.root = some r ∧
      getN (moveNode s a NId.root m) NId.root =
        some { r with children := a :: removeAll r.children a } ∧
      getN (moveNode s a NId.root m) a = some { na with parent := some NId.root } := by
  obtain ⟨r, hgr, hrk, hrp⟩ := wf_root hwf
  obtain ⟨P, pn, hP, hgP, hPk, hPc⟩ := wf_parent_of_ne_root hwf hga hra
  refine ⟨r, hgr, ?_⟩
  have hmi : ¬ m = Mode.into := by rcases hm with h | h <;> subst h <;> simp
  have hanr : ¬ NId.root = a := fun h => hra h.symm
  have haP : ¬ a = P := by
    intro he
    exact wf_no_self_parent hwf hga (he ▸ hP)
  have hPa : ¬ P = a := fun h => haP h.symm
  have hrnc : ¬ NId.root ∈ r.children := wf_root_not_child hwf hgr hrk
  simp only [moveNode, hga, hgr, if_neg hra, hrp, isDescendantFromOpt, hP, hgP,
    if_pos hPk, if_neg hmi, Option.getD, hmi, false_and, and_false, if_false,
    Bool.false_eq_true, getN_modifyN, if_neg hanr]
  by_cases hPr : NId.root = P
  · subst hPr
    have hr2 : ¬ a ∈ removeAll r.children a := by
      intro hmem
      exact (mem_removeAll.mp hmem).2 rfl
    have hidx : idxOfN (removeAll r.children a) NId.root = none :=
      idxOfN_eq_none_iff.mpr (fun hmem => hrnc (mem_removeAll.mp hmem).1)
    simp only [if_pos rfl, hgr, Option.map_some', if_neg haP, hga, hrk,
      if_neg (by simp : ¬ (Kind.folder ≠ Kind.folder)), hidx, Option.map_none', ite_self]
    constructor
    · simp [getN_modifyN, hanr, haP, hra, hidx, hga, hgr, hrp, hrk, spliceInsert_zero]
    · simp [getN_modifyN, hanr, haP, hra, hga]
  · have hanP : ¬ a ∈ r.children := by
      intro hmem
      obtain ⟨cn, hgc, hcp⟩ := wf_children hwf hgr hrk hmem
      rw [hga] at hgc
      injection hgc with he
      rw [he] at hP
      rw [hP] at hcp
      injection hcp with he2
      exact hPr he2.symm
    have hidx : idxOfN r.children NId.root = none := idxOfN_eq_none_iff.mpr hrnc
    simp only [if_neg hPr, hgr, if_neg haP, hga, hrk,
      if_neg (by simp : ¬ (Kind.folder ≠ Kind.folder)), hidx, Option.map_none',
      Option.getD, ite_self]
    constructor
    · simp [getN_modifyN, hanr, haP, hra, hPr, hPa, hidx, hga, hgr, hrp, hrk,
        spliceInsert_zero, removeAll_of_not_mem hanP]
    · simp [getN_modifyN, hanr, haP, hra, hPr, hPa, hga]

/-- Witness for C9: moving the file "f" before the root on `sampleRF`. -/
theorem C9_sibling_move_to_root_inserts_at_front_witness :
    ∃ r, getN sampleRF NId.root = some r ∧
      getN (moveNode sampleRF (NId.gen 0) NId.root Mode.before) NId.root =
        some { r with children := NId.gen 0 :: removeAll r.children (NId.gen 0) } ∧
      getN (moveNode sampleRF (NId.gen 0) NId.root Mode.before) (NId.gen 0) =
        some { (⟨Kind.file, "f", some NId.root, [], false⟩ : Node) with parent := some NId.root } :=
  @C9_sibling_move_to_root_inserts_at_front sampleRF (by decide) (NId.gen 0)
    ⟨Kind.file, "f", some NId.root, [], false⟩
    (by decide) (by decide) Mode.before (Or.inl rfl)

/-- Claim C10: `Move(store, activeId, P, Into)` where `P` is `activeId`'s
current parent is not rejected: it removes `activeId` from its position in
`P`'s children and appends it at the end, sets `P.isOpen` to true, leaves
`activeId`'s own node unchanged (its parent is `P` already), and leaves all
other nodes untouched. -/
theorem C10_move_into_current_parent_appends {s : Store} (hwf : WF s) {a : NId} {na : Node} {P : NId}
    (hga : getN s a = some na) (hra : ¬ a = NId.root) (hP : na.parent = some P) :
    ∃ pn, getN s P = some pn ∧
      getN (moveNode s a P Mode.into) P =
        some { pn with children := removeAll pn.children a ++ [a], isOpen := true } ∧
      getN (moveNode s a P Mode.into) a = some na ∧
      (∀ j, ¬ j = a → ¬ j = P → getN (moveNode s a P Mode.into) j = getN s j) := by
  obtain ⟨_, pn, hgP, hPk, hPc⟩ := wf_parent hwf hga hP
  have haP : ¬ a = P := by
    intro he
    exact wf_no_self_parent hwf hga (he ▸ hP)
  have hPa : ¬ P = a := fun h => haP h.symm
  have hdesc : isDescendant s s.length P a = false := isDescendant_of_parent_false hwf hga hP s.length
  refine ⟨pn, hgP, ?_, ?_, ?_⟩
  · simp only [moveNode, hga, hgP, if_neg hra, if_neg haP, hdesc, Bool.false_eq_true,
      and_false, false_and, if_false, hP,
      if_pos hPk, getN_modifyN, if_neg hPa,
      if_neg (by simp : ¬ (Mode.into = Mode.before ∨ Mode.into = Mode.after))]
    simp [getN_modifyN, hga, hgP, hPa, haP, hPk]
  · simp only [moveNode, hga, hgP, if_neg hra, if_neg haP, hdesc, Bool.false_eq_true,
      and_false, false_and, if_false, hP, if_pos hPk, getN_modifyN,
      if_neg (by simp : ¬ (Mode.into = Mode.before ∨ Mode.into = Mode.after))]
    simp [getN_modifyN, hga, hgP, hPa, haP, hPk]
    cases na
    simp at hP
    simp [hP]
  · intro j hja hjP
    simp only [moveNode, hga, hgP, if_neg hra, if_neg haP, hdesc, Bool.false_eq_true,
      and_false, false_and, if_false, hP, if_pos hPk, getN_modifyN,
      if_neg (by simp : ¬ (Mode.into = Mode.before ∨ Mode.into = Mode.after))]
    simp [getN_modifyN, hga, hgP, hPa, haP, hPk, hja, hjP]

/-- Witness for C10 on `sampleAB`: moving folder "a" into its parent (the
root) appends it to the root's children and opens the root. -/
theorem C10_move_into_current_parent_appends_witness :
    ∃ pn, getN sampleAB NId.root = some pn ∧
      getN (moveNode sampleAB (NId.gen 0) NId.root Mode.into) NId.root =
        some { pn with children := removeAll pn.children (NId.gen 0) ++ [NId.gen 0], isOpen := true } ∧
      getN (moveNode sampleAB (NId.gen 0) NId.root Mode.into) (NId.gen 0) =
        some ⟨Kind.folder, "a", some NId.root, [NId.gen 1], true⟩ ∧
      (∀ j, ¬ j = NId.gen 0 → ¬ j = NId.root →
        getN (moveNode sampleAB (NId.gen 0) NId.root Mode.into) j = getN sampleAB j) :=
  @C10_move_into_current_parent_appends sampleAB (by decide) (NId.gen 0)
    ⟨Kind.folder, "a", some NId.root, [NId.gen 1], true⟩ NId.root
    (by decide) (by decide) (by decide)

theorem idxOfN_lt_length {l : List NId} {x : NId} {k : Nat}
    (h : idxOfN l x = some k) : k < l.length := by
  induction l generalizing k with
  | nil => simp [idxOfN] at h
  | cons c rest ih =>
    by_cases hc : c = x
    · simp only [idxOfN, if_pos hc] at h
      injection h with h
      simp only [List.length_cons]
      omega
    · simp only [idxOfN, if_neg hc] at h
      cases hr : idxOfN rest x with
      | none => rw [hr] at h; simp at h
      | some k2 =>
        rw [hr] at h
        simp only [Option.map_some'] at h
        injection h with h
        have := ih hr
        simp only [List.length_cons]
        omega

theorem idxOfN_isSome_of_mem {l : List NId} {x : NId} (h : x ∈ l) :
    ∃ k, idxOfN l x = some k := by
  induction l with
  | nil => simp at h
  | cons c rest ih =>
    by_cases hc : c = x
    · exact ⟨0, by simp [idxOfN, hc]⟩
    · rcases List.mem_cons.mp h with h1 | h1
      · exact absurd h1.symm hc
      · obtain ⟨k, hk⟩ := ih h1
        exact ⟨k + 1, by simp [idxOfN, hc, hk]⟩

theorem idxOfN_spliceInsert_self {l : List NId} {a : NId} :
    ∀ {k : Nat}, ¬ a ∈ l → k ≤ l.length → idxOfN (spliceInsert l k a) a = some k := by
  induction l with
  | nil =>
    intro k _ hk
    have hk0 : k = 0 := by simpa using hk
    subst hk0
    simp [spliceInsert, idxOfN]
  | cons c rest ih =>
    intro k ha hk
    cases k with
    | zero => simp [spliceInsert, idxOfN]
    | succ k2 =>
      have hca : ¬ c = a := fun he => ha (he ▸ List.mem_cons_self c rest)
      have har : ¬ a ∈ rest := fun hm => ha (List.mem_cons_of_mem _ hm)
      have hk2 : k2 ≤ rest.length := by simp at hk; omega
      have hsp : spliceInsert (c :: rest) (k2 + 1) a = c :: spliceInsert rest k2 a := by
        simp [spliceInsert]
      rw [hsp]
      simp only [idxOfN, if_neg hca, ih har hk2, Option.map_some']

theorem arrayMove_id {l : List NId} {i : Nat} (h : i < l.length) :
    arrayMove l i i = l := by
  have hx : l.get? i = some l[i] := by
    rw [List.get?_eq_getElem?, List.getElem?_eq_getElem h]
  have hlen : (l.take i).length = i := by
    simp only [List.length_take]
    omega
  unfold arrayMove
  rw [hx]
  show spliceInsert (l.take i ++ l.drop (i + 1)) i l[i] = l
  unfold spliceInsert
  rw [List.take_left' hlen, List.drop_left' hlen]
  rw [← List.drop_eq_getElem_cons h, List.take_append_drop]

/-- The spec's description of a same-parent sibling move: remove the source
from the children list, then reinsert it immediately before (or after) the
target's position — a stable array move. -/
def removeReinsert (l : List NId) (a b : NId) (afterTarget : Bool) : List NId :=
  let l2 := removeAll l a
  match idxOfN l2 b with
  | some k => spliceInsert l2 (if afterTarget then k + 1 else k) a
  | none => spliceInsert l2 0 a

/-- Claim C7: when `activeId` and `targetId` are distinct children of the
same folder `P`, `Move(_, _, Before)` (resp. `After`) yields exactly the
children list obtained by removing `activeId` and reinserting it
immediately before (resp. after) `targetId` — a stable array move — and the
drag-drop sibling path (`onDragEnd` with shift held, or with a file target)
computes the same children list (its final `arrayMove` is the identity in
the same-parent case). -/
theorem C7_same_parent_sibling_move_stable {s : Store} (hwf : WF s) {a b : NId} {na nb : Node} {P : NId}
    (hga : getN s a = some na) (hgb : getN s b = some nb) (hab : ¬ a = b)
    (hPa : na.parent = some P) (hPb : nb.parent = some P) :
    ∃ pn, getN s P = some pn ∧
      (getN (moveNode s a b Mode.before) P).map (·.children) =
        some (removeReinsert pn.children a b false) ∧
      (getN (moveNode s a b Mode.after) P).map (·.children) =
        some (removeReinsert pn.children a b true) ∧
      (∀ sh : Bool, (nb.kind = Kind.folder → sh = true) →
        (getN (onDragEnd s a b sh) P).map (·.children) =
          some (removeReinsert pn.children a b false)) := by
  obtain ⟨hra, pn, hgP, hPk, hPca⟩ := wf_parent hwf hga hPa
  obtain ⟨hrb, pn2, hgP2, _, hPcb⟩ := wf_parent hwf hgb hPb
  rw [hgP] at hgP2
  injection hgP2 with he
  subst he
  have haP : ¬ a = P := fun he => wf_no_self_parent hwf hga (he ▸ hPa)
  have hPa' : ¬ P = a := fun h => haP h.symm
  have hba : ¬ b = a := fun h => hab h.symm
  have hguard : isDescendant s s.length P a = false :=
    isDescendant_of_parent_false hwf hga hPa s.length
  have hbmem : b ∈ pn.children := by
    have : 0 < pn.children.count b := by omega
    exact List.count_pos_iff_mem.mp this
  have hbmem2 : b ∈ removeAll pn.children a := mem_removeAll.mpr ⟨hbmem, hba⟩
  obtain ⟨k, hk⟩ := idxOfN_isSome_of_mem hbmem2
  have hklen : k < (removeAll pn.children a).length := idxOfN_lt_length hk
  have hamem : ¬ a ∈ removeAll pn.children a := fun hm => (mem_removeAll.mp hm).2 rfl
  refine ⟨pn, hgP, ?_, ?_, ?_⟩
  · simp only [moveNode, hga, hgb, if_neg hra, if_neg hab, hPa, hPb, hgP, if_pos hPk,
      isDescendantFromOpt, hguard, Bool.false_eq_true, and_false, if_false,
      getN_modifyN, if_neg hPa', Option.getD, removeReinsert, hk]
    simp [getN_modifyN, hga, hgP, hPa', haP, hPk, hk]
  · simp only [moveNode, hga, hgb, if_neg hra, if_neg hab, hPa, hPb, hgP, if_pos hPk,
      isDescendantFromOpt, hguard, Bool.false_eq_true, and_false, if_false,
      getN_modifyN, if_neg hPa', Option.getD, removeReinsert, hk]
    simp [getN_modifyN, hga, hgP, hPa', haP, hPk, hk]
  · intro sh hsh
    have hnotinto : ¬ (nb.kind = Kind.folder ∧ sh = false) := by
      rintro ⟨hk2, hshf⟩
      rw [hsh hk2] at hshf
      exact Bool.noConfusion hshf
    simp only [onDragEnd, hga, hgb, if_neg hab, hPa, hPb, Option.getD, hgP,
      if_neg hnotinto, if_pos hPk, isDescendantFromOpt, hguard, Bool.false_eq_true,
      and_false, if_false, getN_modifyN, if_neg hPa', removeReinsert, hk]
    simp [getN_modifyN, hga, hgP, hPa', haP, hPk, hk,
      idxOfN_spliceInsert_self hamem (le_of_lt hklen)]
    have hlen2 : k < (spliceInsert (removeAll pn.children a) k a).length := by
      simp only [spliceInsert, List.length_append, List.length_cons, List.length_take]
      omega
    exact arrayMove_id hlen2

/-- A root folder holding two files "x" (gen 0) and "y" (gen 1). -/
def sampleTwo : Store :=
  [(NId.root, ⟨Kind.folder, "PROJECT", none, [NId.gen 0, NId.gen 1], true⟩),
   (NId.gen 0, ⟨Kind.file, "x", some NId.root, [], false⟩),
   (NId.gen 1, ⟨Kind.file, "y", some NId.root, [], false⟩)]

/-- Witness for C7: moving "y" before its sibling "x" under the root. -/
theorem C7_same_parent_sibling_move_stable_witness :
    ∃ pn, getN sampleTwo NId.root = some pn ∧
      (getN (moveNode sampleTwo (NId.gen 1) (NId.gen 0) Mode.before) NId.root).map (·.children) =
        some (removeReinsert pn.children (NId.gen 1) (NId.gen 0) false) ∧
      (getN (moveNode sampleTwo (NId.gen 1) (NId.gen 0) Mode.after) NId.root).map (·.children) =
        some (removeReinsert pn.children (NId.gen 1) (NId.gen 0) true) ∧
      (∀ sh : Bool, ((⟨Kind.file, "x", some NId.root, [], false⟩ : Node).kind = Kind.folder → sh = true) →
        (getN (onDragEnd sampleTwo (NId.gen 1) (NId.gen 0) sh) NId.root).map (·.children) =
          some (removeReinsert pn.children (NId.gen 1) (NId.gen 0) false)) :=
  @C7_same_parent_sibling_move_stable sampleTwo (by decide)
    (NId.gen 1) (NId.gen 0)
    ⟨Kind.file, "y", some NId.root, [], false⟩
    ⟨Kind.file, "x", some NId.root, [], false⟩ NId.root
    (by decide) (by decide) (by decide) (by decide) (by decide)

/-- The ids `removeSubtree`'s loop pushes when processing `i`. -/
def folderChildren (s : Store) (i : NId) : List NId :=
  match getN s i with
  | some n => if n.kind = Kind.folder then n.children else []
  | none => []

theorem bfs_cons (s : Store) (f : Nat) (i : NId) (rest : List NId) :
    bfs s (f + 1) (i :: rest) = i :: bfs s f (rest ++ folderChildren s i) := rfl

theorem bfsOK_cons (s : Store) (f : Nat) (i : NId) (rest : List NId) :
    bfsOK s (f + 1) (i :: rest) = bfsOK s f (rest ++ folderChildren s i) := rfl

/-- Every collected id entered through the seed queue or as the child of a
collected folder. -/
theorem bfs_origin {s : Store} :
    ∀ (f : Nat) (q : List NId) (x : NId), x ∈ bfs s f q →
      x ∈ q ∨ ∃ p, p ∈ bfs s f q ∧ x ∈ folderChildren s p := by
  intro f
  induction f with
  | zero =>
    intro q x hx
    cases q with
    | nil => simp [bfs] at hx
    | cons i rest => simp [bfs] at hx
  | succ f ih =>
    intro q x hx
    cases q with
    | nil => simp [bfs] at hx
    | cons i rest =>
      rw [bfs_cons] at hx
      rcases List.mem_cons.mp hx with h1 | h1
      · exact Or.inl (h1 ▸ List.mem_cons_self i rest)
      · rcases ih _ x h1 with h2 | ⟨p, hp, hpc⟩
        · rcases List.mem_append.mp h2 with h3 | h3
          · exact Or.inl (List.mem_cons_of_mem _ h3)
          · exact Or.inr ⟨i, by rw [bfs_cons]; exact List.mem_cons_self i _, h3⟩
        · exact Or.inr ⟨p, by rw [bfs_cons]; exact List.mem_cons_of_mem _ hp, hpc⟩

/-- When the queue empties in time, every queued id is collected. -/
theorem bfs_mem_of_mem_queue {s : Store} :
    ∀ (f : Nat) (q : List NId), bfsOK s f q = true → ∀ x ∈ q, x ∈ bfs s f q := by
  intro f
  induction f with
  | zero =>
    intro q hok x hx
    cases q with
    | nil => simp at hx
    | cons i rest => exact absurd hok (by simp [bfsOK])
  | succ f ih =>
    intro q hok x hx
    cases q with
    | nil => simp at hx
    | cons i rest =>
      rw [bfsOK_cons] at hok
      rw [bfs_cons]
      rcases List.mem_cons.mp hx with h1 | h1
      · exact h1 ▸ List.mem_cons_self _ _
      · exact List.mem_cons_of_mem _ (ih _ hok x (List.mem_append.mpr (Or.inl h1)))

/-- When the queue empties in time, the collected set is closed under
folder children. -/
theorem bfs_children_closed {s : Store} :
    ∀ (f : Nat) (q : List NId), bfsOK s f q = true →
      ∀ p ∈ bfs s f q, ∀ c ∈ folderChildren s p, c ∈ bfs s f q := by
  intro f
  induction f with
  | zero =>
    intro q hok p hp
    cases q with
    | nil => simp [bfs] at hp
    | cons i rest => simp [bfs] at hp
  | succ f ih =>
    intro q hok p hp c hc
    cases q with
    | nil => simp [bfs] at hp
    | cons i rest =>
      rw [bfsOK_cons] at hok
      rw [bfs_cons] at hp ⊢
      rcases List.mem_cons.mp hp with h1 | h1
      · subst h1
        refine List.mem_cons_of_mem _ ?_
        exact bfs_mem_of_mem_queue f _ hok c (List.mem_append.mpr (Or.inr hc))
      · exact List.mem_cons_of_mem _ (ih _ hok p h1 c hc)

theorem mem_folderChildren {s : Store} {i c : NId} :
    c ∈ folderChildren s i ↔
      ∃ n, getN s i = some n ∧ n.kind = Kind.folder ∧ c ∈ n.children := by
  unfold folderChildren
  cases hg : getN s i with
  | none => simp
  | some n =>
    by_cases hk : n.kind = Kind.folder
    · simp [hk]
    · simp [hk]

/-- Collected ids sit at or below the depth of every queue element. -/
theorem bfs_depth_lb {s : Store} (hwf : WF s) (D : Nat) :
    ∀ (f : Nat) (q : List NId),
      (∀ y ∈ q, ∃ dy, hops s s.length y = some dy ∧ D ≤ dy) →
      ∀ x ∈ bfs s f q, ∃ dx, hops s s.length x = some dx ∧ D ≤ dx := by
  intro f
  induction f with
  | zero =>
    intro q hq x hx
    cases q with
    | nil => simp [bfs] at hx
    | cons i rest => simp [bfs] at hx
  | succ f ih =>
    intro q hq x hx
    cases q with
    | nil => simp [bfs] at hx
    | cons i rest =>
      rw [bfs_cons] at hx
      rcases List.mem_cons.mp hx with h1 | h1
      · exact hq x (h1 ▸ List.mem_cons_self i rest)
      · refine ih _ ?_ x h1
        intro y hy
        rcases List.mem_append.mp hy with h2 | h2
        · exact hq y (List.mem_cons_of_mem _ h2)
        · obtain ⟨n, hgn, hkn, hcn⟩ := mem_folderChildren.mp h2
          obtain ⟨cn, hgc, hcp⟩ := wf_children hwf hgn hkn hcn
          obtain ⟨dp, hdp, hdc⟩ := depth_child hwf hgc hcp
          obtain ⟨di, hdi, hDi⟩ := hq i (List.mem_cons_self i rest)
          rw [hdi] at hdp
          injection hdp with he
          exact ⟨dp + 1, hdc, by omega⟩

theorem bfs_ok_master {s : Store} (hwf : WF s) (n0 : NId) :
    ∀ (f : Nat) (q V : List NId),
      ((q ++ V).Nodup) →
      (∀ x ∈ q, x ∈ keys s) →
      (∀ x ∈ V, x ∈ keys s) →
      (∀ i ∈ V, ∀ c ∈ folderChildren s i, c ∈ V ∨ c ∈ q) →
      (∀ x ∈ q ++ V, ¬ x = n0 → ∀ (nx : Node), getN s x = some nx →
        ∃ px, nx.parent = some px ∧ px ∈ V) →
      (∀ x ∈ q ++ V, ∃ dx d0, hops s s.length x = some dx ∧
        hops s s.length n0 = some d0 ∧ d0 ≤ dx) →
      ((keys s).length ≤ f + V.length) →
      bfsOK s f q = true := by
  intro f
  induction f with
  | zero =>
    intro q V hnd hqk hVk hrec hpar hdep hfuel
    cases q with
    | nil => rfl
    | cons i rest =>
      exfalso
      have hsub : (i :: rest ++ V) ⊆ keys s := by
        intro x hx
        rcases List.mem_append.mp hx with h | h
        · exact hqk x h
        · exact hVk x h
      have hle : (i :: rest ++ V).length ≤ (keys s).length :=
        (List.subperm_of_subset hnd hsub).length_le
      simp only [List.length_append, List.length_cons] at hle
      omega
  | succ f ih =>
    intro q V hnd hqk hVk hrec hpar hdep hfuel
    cases q with
    | nil => rfl
    | cons i rest =>
      rw [bfsOK_cons]
      have hik : i ∈ keys s := hqk i (List.mem_cons_self i rest)
      obtain ⟨ni, hgi⟩ := Option.isSome_iff_exists.mp (getN_isSome_iff.mpr hik)
      -- facts about the enqueued children
      have hfc_parent : ∀ c ∈ folderChildren s i,
          ∃ cn, getN s c = some cn ∧ cn.parent = some i := by
        intro c hc
        obtain ⟨n, hgn, hkn, hcn⟩ := mem_folderChildren.mp hc
        exact wf_children hwf hgn hkn hcn
      have hfc_keys : ∀ c ∈ folderChildren s i, c ∈ keys s := by
        intro c hc
        obtain ⟨cn, hgc, _⟩ := hfc_parent c hc
        exact getN_isSome_iff.mp (by rw [hgc]; rfl)
      have hfc_count : ∀ c ∈ folderChildren s i, (folderChildren s i).count c = 1 := by
        intro c hc
        obtain ⟨n, hgn, hkn, hcn⟩ := mem_folderChildren.mp hc
        have hfc_eq : folderChildren s i = n.children := by
          simp [folderChildren, hgn, hkn]
        obtain ⟨cn, hgc, hcp⟩ := wf_children hwf hgn hkn hcn
        obtain ⟨_, pn', hgp', _, hcnt⟩ := wf_parent hwf hgc hcp
        rw [hgn] at hgp'
        injection hgp' with he2
        rw [hfc_eq, he2]
        exact hcnt
      have hfc_nodup : (folderChildren s i).Nodup := by
        rw [List.nodup_iff_count_le_one]
        intro c
        by_cases hc : c ∈ folderChildren s i
        · rw [hfc_count c hc]
        · rw [List.count_eq_zero.mpr hc]
          omega
      have hdep_i := hdep i (List.mem_append.mpr (Or.inl (List.mem_cons_self i rest)))
      obtain ⟨di, d0, hdi, hd0, hd0i⟩ := hdep_i
      have hfc_depth : ∀ c ∈ folderChildren s i,
          hops s s.length c = some (di + 1) := by
        intro c hc
        obtain ⟨cn, hgc, hcp⟩ := hfc_parent c hc
        obtain ⟨dp, hdp, hdc⟩ := depth_child hwf hgc hcp
        rw [hdi] at hdp
        injection hdp with he
        rw [← he] at hdc
        exact hdc
      have hfc_fresh : ∀ c ∈ folderChildren s i, ¬ c ∈ (i :: rest) ++ V := by
        intro c hc hmem
        have hcn0 : ¬ c = n0 := by
          intro he
          subst he
          rw [hfc_depth c hc] at hd0
          injection hd0 with he2
          omega
        obtain ⟨cn, hgc, hcp⟩ := hfc_parent c hc
        obtain ⟨px, hpx, hpxV⟩ := hpar c hmem hcn0 cn hgc
        rw [hcp] at hpx
        injection hpx with he3
        subst he3
        -- the parent i of c is still in the queue, not yet in V
        have : ¬ i ∈ V := by
          intro hiV
          have := List.disjoint_of_nodup_append hnd
          exact this (List.mem_cons_self i rest) hiV
        exact this hpxV
      -- the new queue/visited pair
      refine ih (rest ++ folderChildren s i) (V ++ [i]) ?_ ?_ ?_ ?_ ?_ ?_ ?_
      · -- nodup, by counting
        rw [List.nodup_iff_count_le_one]
        intro x
        have hold : ((i :: rest) ++ V).count x ≤ 1 :=
          List.nodup_iff_count_le_one.mp hnd x
        simp only [List.count_append, List.count_cons, List.count_nil] at hold ⊢
        by_cases hx : x ∈ folderChildren s i
        · have h1 : (folderChildren s i).count x = 1 := hfc_count x hx
          have h2 : ¬ x ∈ (i :: rest) ++ V := hfc_fresh x hx
          have h3 : List.count x rest = 0 := by
            rw [List.count_eq_zero]
            intro hm
            exact h2 (List.mem_append.mpr (Or.inl (List.mem_cons_of_mem _ hm)))
          have h4 : List.count x V = 0 := by
            rw [List.count_eq_zero]
            intro hm
            exact h2 (List.mem_append.mpr (Or.inr hm))
          have h5 : ¬ x = i := fun he => h2 (List.mem_append.mpr (Or.inl (he ▸ List.mem_cons_self i rest)))
          have h5' : ¬ i = x := fun he => h5 he.symm
          simp only [beq_iff_eq] at hold ⊢
          rw [h1, h3, h4, if_neg h5']
        · have h1 : (folderChildren s i).count x = 0 := List.count_eq_zero.mpr hx
          simp only [beq_iff_eq] at hold ⊢
          rw [h1]
          omega
      · intro x hx
        rcases List.mem_append.mp hx with h | h
        · exact hqk x (List.mem_cons_of_mem _ h)
        · exact hfc_keys x h
      · intro x hx
        rcases List.mem_append.mp hx with h | h
        · exact hVk x h
        · simp only [List.mem_singleton] at h
          exact h ▸ hik
      · intro j hj c hc
        rcases List.mem_append.mp hj with h | h
        · rcases hrec j h c hc with h2 | h2
          · exact Or.inl (List.mem_append.mpr (Or.inl h2))
          · rcases List.mem_cons.mp h2 with h3 | h3
            · exact Or.inl (List.mem_append.mpr (Or.inr (by simp [h3])))
            · exact Or.inr (List.mem_append.mpr (Or.inl h3))
        · simp only [List.mem_singleton] at h
          subst h
          exact Or.inr (List.mem_append.mpr (Or.inr hc))
      · intro x hx hxn0 nx hgx
        rcases List.mem_append.mp hx with h | h
        · rcases List.mem_append.mp h with h2 | h2
          · obtain ⟨px, hpx, hpxV⟩ := hpar x
              (List.mem_append.mpr (Or.inl (List.mem_cons_of_mem _ h2))) hxn0 nx hgx
            exact ⟨px, hpx, List.mem_append.mpr (Or.inl hpxV)⟩
          · obtain ⟨cn, hgc, hcp⟩ := hfc_parent x h2
            rw [hgx] at hgc
            injection hgc with he
            subst he
            exact ⟨i, hcp, List.mem_append.mpr (Or.inr (List.mem_singleton.mpr rfl))⟩
        · rcases List.mem_append.mp h with h2 | h2
          · obtain ⟨px, hpx, hpxV⟩ := hpar x (List.mem_append.mpr (Or.inr h2)) hxn0 nx hgx
            exact ⟨px, hpx, List.mem_append.mpr (Or.inl hpxV)⟩
          · simp only [List.mem_singleton] at h2
            subst h2
            obtain ⟨px, hpx, hpxV⟩ := hpar x
              (List.mem_append.mpr (Or.inl (List.mem_cons_self x rest))) hxn0 nx hgx
            exact ⟨px, hpx, List.mem_append.mpr (Or.inl hpxV)⟩
      · intro x hx
        rcases List.mem_append.mp hx with h | h
        · rcases List.mem_append.mp h with h2 | h2
          · exact hdep x (List.mem_append.mpr (Or.inl (List.mem_cons_of_mem _ h2)))
          · exact ⟨di + 1, d0, hfc_depth x h2, hd0, by omega⟩
        · rcases List.mem_append.mp h with h2 | h2
          · exact hdep x (List.mem_append.mpr (Or.inr h2))
          · simp only [List.mem_singleton] at h2
            subst h2
            exact hdep x (List.mem_append.mpr (Or.inl (List.mem_cons_self x rest)))
      · simp only [List.length_append, List.length_singleton]
        omega

theorem bfs_ok_seed {s : Store} (hwf : WF s) {n0 : NId} {n0n : Node}
    (hg : getN s n0 = some n0n) : bfsOK s s.length [n0] = true := by
  refine bfs_ok_master hwf n0 s.length [n0] [] ?_ ?_ ?_ ?_ ?_ ?_ ?_
  · simp
  · intro x hx
    simp only [List.mem_singleton] at hx
    subst hx
    exact getN_isSome_iff.mp (by rw [hg]; rfl)
  · intro x hx
    simp at hx
  · intro i hi
    simp at hi
  · intro x hx hxn
    simp at hx
    exact absurd hx hxn
  · intro x hx
    simp only [List.append_nil, List.mem_singleton] at hx
    subst hx
    obtain ⟨d, hd⟩ := Option.isSome_iff_exists.mp (wf_hops hwf hg)
    exact ⟨d, d, hd, hd, le_refl d⟩
  · simp [keys]

theorem bfs_root_complete {s : Store} (hwf : WF s) :
    ∀ (d : Nat) (x : NId) (nx : Node), getN s x = some nx →
      hops s s.length x = some d → x ∈ bfs s s.length [NId.root] := by
  intro d
  induction d using Nat.strong_induction_on with
  | _ d ih =>
    intro x nx hgx hdx
    obtain ⟨r, hgr, hrk, hrp⟩ := wf_root hwf
    have hok : bfsOK s s.length [NId.root] = true := bfs_ok_seed hwf hgr
    cases hp : nx.parent with
    | none =>
      have hxr : x = NId.root := (wf_parent_none_iff hwf hgx).mp hp
      subst hxr
      exact bfs_mem_of_mem_queue _ _ hok _ (List.mem_singleton.mpr rfl)
    | some p =>
      obtain ⟨dp, hdp, hdc⟩ := depth_child hwf hgx hp
      rw [hdx] at hdc
      injection hdc with he
      obtain ⟨_, pn, hgp, hpk, hpcnt⟩ := wf_parent hwf hgx hp
      have hxmem : x ∈ pn.children := by
        have : 0 < pn.children.count x := by omega
        exact List.count_pos_iff_mem.mp this
      have hpin : p ∈ bfs s s.length [NId.root] := ih dp (by omega) p pn hgp hdp
      refine bfs_children_closed _ _ hok p hpin x ?_
      exact mem_folderChildren.mpr ⟨pn, hgp, hpk, hxmem⟩

/-- Claim C2 (amended): `Move(store, rootId, targetId, mode)` is always a
no-op, on every store; `RemoveSubtree(store, rootId)` however keeps only the
root entry (unchanged, its children list included) and removes every other
node of a wellformed store. -/
theorem C2_root_move_noop_and_removeSubtree_root_clears :
    (∀ (s : Store) (tid : NId) (m : Mode), moveNode s NId.root tid m = s) ∧
    (∀ (s : Store), WF s →
      ∀ j, getN (removeSubtree s NId.root) j =
        if j = NId.root then getN s j else none) := by
  constructor
  · intro s tid m
    exact moveNode_noop (Or.inr (Or.inr (Or.inl rfl)))
  · intro s hwf j
    obtain ⟨r, hgr, hrk, hrp⟩ := wf_root hwf
    unfold removeSubtree
    rw [hgr]
    simp only [Option.some_bind, hrp]
    rw [getN_foldl_erase]
    by_cases hj : j = NId.root
    · rw [if_pos hj, if_neg (by simp [hj])]
    · rw [if_neg hj]
      cases hjk : getN s j with
      | none =>
        by_cases hmem : j ∈ bfs s s.length [NId.root] ∧ ¬ j = NId.root
        · rw [if_pos hmem]
        · rw [if_neg hmem]
      | some nj =>
        obtain ⟨d, hd⟩ := Option.isSome_iff_exists.mp (wf_hops hwf hjk)
        have hin : j ∈ bfs s s.length [NId.root] := bfs_root_complete hwf d j nj hjk hd
        rw [if_pos ⟨hin, hj⟩]

/-- Witness for C2 on `sampleRF`: the root entry survives unchanged, the
file child is removed. -/
theorem C2_root_move_noop_and_removeSubtree_root_clears_witness :
    moveNode sampleRF NId.root (NId.gen 0) Mode.into = sampleRF ∧
    getN (removeSubtree sampleRF NId.root) NId.root =
      (if (NId.root : NId) = NId.root then getN sampleRF NId.root else none) ∧
    getN (removeSubtree sampleRF NId.root) (NId.gen 0) =
      (if (NId.gen 0 : NId) = NId.root then getN sampleRF (NId.gen 0) else none) :=
  ⟨C2_root_move_noop_and_removeSubtree_root_clears.1 sampleRF (NId.gen 0) Mode.into,
   C2_root_move_noop_and_removeSubtree_root_clears.2 sampleRF (by decide) NId.root,
   C2_root_move_noop_and_removeSubtree_root_clears.2 sampleRF (by decide) (NId.gen 0)⟩

/-- Bidirectional consistency, exactly as the spec states it: every node's
parent is a present folder whose children list holds the node exactly once,
and every folder's children exist and point back to it. -/
def BidirOK (s : Store) : Prop :=
  (∀ i n p, getN s i = some n → n.parent = some p →
    ∃ pn, getN s p = some pn ∧ pn.children.count i = 1) ∧
  (∀ i n c, getN s i = some n → n.kind = Kind.folder → c ∈ n.children →
    ∃ cn, getN s c = some cn ∧ cn.parent = some i)

theorem wf_bidir {s : Store} (hwf : WF s) : BidirOK s := by
  constructor
  · intro i n p hg hp
    obtain ⟨_, pn, hgp, _, hcnt⟩ := wf_parent hwf hg hp
    exact ⟨pn, hgp, hcnt⟩
  · intro i n c hg hk hc
    exact wf_children hwf hg hk hc

theorem modifyN_modifyN_same (s : Store) (i : NId) (f g : Node → Node) :
    modifyN (modifyN s i f) i g = modifyN s i (fun n => g (f n)) := by
  unfold modifyN
  rw [List.map_map]
  apply List.map_congr_left
  intro kv _
  by_cases hk : kv.1 = i <;> simp [hk]

theorem bidir_of_move_transform {s : Store} (hwf : WF s) {a P T : NId} {na : Node}
    (hga : getN s a = some na) (hP : na.parent = some P) (hT : T ∈ keys s)
    (fT : Node → Node)
    (hfT_parent : ∀ n, (fT n).parent = n.parent)
    (hfT_kind : ∀ n, (fT n).kind = n.kind)
    (hfT_count : ∀ n c, (fT n).children.count c =
      n.children.count c + if c = a then 1 else 0) :
    BidirOK (modifyN (modifyN (modifyN s P
        (fun n => { n with children := removeAll n.children a }))
        a (fun n => { n with parent := some T })) T fT) := by
  have haP : ¬ a = P := by
    intro he
    exact wf_no_self_parent hwf hga (he ▸ hP)
  -- pointwise description of the transformed store
  set f1 : Node → Node := fun n => { n with children := removeAll n.children a } with hf1
  set f2 : Node → Node := fun n => { n with parent := some T } with hf2
  set tr : NId → Node → Node := fun j n =>
    (fun n2 => if j = T then fT n2 else n2)
      ((fun n1 => if j = a then f2 n1 else n1) (if j = P then f1 n else n)) with htr
  have hget : ∀ j, getN (modifyN (modifyN (modifyN s P f1) a f2) T fT) j =
      (getN s j).map (tr j) := by
    intro j
    simp only [getN_modifyN]
    cases hg : getN s j with
    | none => simp
    | some n =>
      simp only [hg, Option.map_some', htr]
      split_ifs <;> rfl
  have hpar_tr : ∀ j n, (tr j n).parent = if j = a then some T else n.parent := by
    intro j n
    simp only [htr, hf1, hf2]
    split_ifs <;> simp [hfT_parent]
  have hkind_tr : ∀ j n, (tr j n).kind = n.kind := by
    intro j n
    simp only [htr, hf1, hf2]
    split_ifs <;> simp [hfT_kind]
  have hcount_tr : ∀ j n c, (tr j n).children.count c =
      (if j = P ∧ c = a then 0 else n.children.count c) +
        (if j = T ∧ c = a then 1 else 0) := by
    intro j n c
    by_cases hca : c = a
    · subst hca
      simp only [htr, hf1, hf2, eq_self_iff_true, and_true]
      split_ifs <;> simp_all [hfT_count, count_removeAll] <;> omega
    · simp only [htr, hf1, hf2, hca, and_false, if_false]
      split_ifs <;> simp_all [hfT_count, count_removeAll] <;> omega
  obtain ⟨tn, hgT⟩ := Option.isSome_iff_exists.mp (getN_isSome_iff.mpr hT)
  have hbase : ¬ T = P → tn.children.count a = 0 := by
    intro hTP
    rw [List.count_eq_zero]
    intro hmem
    cases hk : tn.kind with
    | folder =>
      obtain ⟨cn, hgc, hcp⟩ := wf_children hwf hgT hk hmem
      rw [hga] at hgc
      injection hgc with he
      rw [he] at hP
      rw [hP] at hcp
      injection hcp with he2
      exact hTP he2.symm
    | file =>
      rw [wf_file_leaf hwf hgT hk] at hmem
      simp at hmem
  constructor
  · intro j nj' p' hgj' hp'
    rw [hget j] at hgj'
    obtain ⟨nj, hgj, htr_j⟩ := Option.map_eq_some'.mp hgj'
    by_cases hja : j = a
    · subst hja
      rw [hga] at hgj
      injection hgj with he
      subst he
      have hp'T : p' = T := by
        rw [← htr_j, hpar_tr, if_pos rfl] at hp'
        injection hp' with he2
        exact he2.symm
      subst hp'T
      refine ⟨tr p' tn, by rw [hget p', hgT]; rfl, ?_⟩
      rw [hcount_tr]
      by_cases hTP : p' = P
      · simp [hTP]
      · simp [hTP, hbase hTP]
    · have hpj : nj.parent = some p' := by
        rw [← htr_j, hpar_tr, if_neg hja] at hp'
        exact hp'
      obtain ⟨_, pn'', hgp'', _, hcnt⟩ := wf_parent hwf hgj hpj
      refine ⟨tr p' pn'', by rw [hget p', hgp'']; rfl, ?_⟩
      rw [hcount_tr]
      simp [hja, hcnt]
  · intro j nj' c hgj' hk' hc
    rw [hget j] at hgj'
    obtain ⟨nj, hgj, htr_j⟩ := Option.map_eq_some'.mp hgj'
    have hkind : nj.kind = Kind.folder := by
      rw [← htr_j, hkind_tr] at hk'
      exact hk'
    have hcmem : 0 < ((tr j nj).children.count c) := List.count_pos_iff_mem.mpr (htr_j ▸ hc)
    rw [hcount_tr] at hcmem
    by_cases hca : c = a
    · subst hca
      have hjT : j = T := by
        by_contra hjT
        simp only [hjT, false_and, if_false, eq_self_iff_true, and_true] at hcmem
        by_cases hjP : j = P
        · simp [hjP] at hcmem
        · simp only [hjP, false_and, if_false] at hcmem
          have hmem : c ∈ nj.children := List.count_pos_iff_mem.mp (by omega)
          obtain ⟨cn, hgc, hcp⟩ := wf_children hwf hgj hkind hmem
          rw [hga] at hgc
          injection hgc with he
          rw [he] at hP
          rw [hP] at hcp
          injection hcp with he2
          exact hjP he2.symm
      refine ⟨tr c na, by rw [hget c, hga]; rfl, ?_⟩
      rw [hpar_tr, if_pos rfl, hjT]
    · have hmem : c ∈ nj.children := by
        apply List.count_pos_iff_mem.mp
        simp only [hca, and_false, if_false] at hcmem
        omega
      obtain ⟨cn, hgc, hcp⟩ := wf_children hwf hgj hkind hmem
      refine ⟨tr c cn, by rw [hget c, hgc]; rfl, ?_⟩
      rw [hpar_tr, if_neg hca]
      exact hcp

theorem count_append_singleton (l : List NId) (a c : NId) :
    (l ++ [a]).count c = l.count c + if c = a then 1 else 0 := by
  rw [List.count_append]
  by_cases hc : c = a <;> simp [hc, List.count_singleton]

theorem moveNode_bidir {s : Store} (hwf : WF s) (a o : NId) (m : Mode) :
    BidirOK (moveNode s a o m) := by
  cases hga : getN s a with
  | none => rw [moveNode_noop (Or.inl hga)]; exact wf_bidir hwf
  | some na =>
  cases hgo : getN s o with
  | none => rw [moveNode_noop (Or.inr (Or.inl hgo))]; exact wf_bidir hwf
  | some no =>
  by_cases hra : a = NId.root
  · rw [moveNode_noop (Or.inr (Or.inr (Or.inl hra)))]; exact wf_bidir hwf
  by_cases hao : a = o
  · rw [moveNode_noop (Or.inr (Or.inr (Or.inr hao)))]; exact wf_bidir hwf
  by_cases hg1 : na.kind = Kind.folder ∧ m = Mode.into ∧
      isDescendant s s.length o a = true
  · have hred : moveNode s a o m = s := by
      simp only [moveNode, hga, hgo, if_neg hra, if_neg hao, if_pos hg1]
    rw [hred]
    exact wf_bidir hwf
  by_cases hg2 : na.kind = Kind.folder ∧ (m = Mode.before ∨ m = Mode.after) ∧
      isDescendantFromOpt s s.length no.parent a = true
  · have hred : moveNode s a o m = s := by
      simp only [moveNode, hga, hgo, if_neg hra, if_neg hao, if_neg hg1, if_pos hg2]
    rw [hred]
    exact wf_bidir hwf
  obtain ⟨P, pn, hP, hgP, hPk, hPc⟩ := wf_parent_of_ne_root hwf hga hra
  have hTmem : ∀ x : NId, getN s x = some no → x ∈ keys s := by
    intro x hx
    exact getN_isSome_iff.mp (by rw [hx]; rfl)
  cases m with
  | into =>
    by_cases hok : no.kind = Kind.folder
    · have hred : moveNode s a o Mode.into =
          modifyN (modifyN (modifyN s P
            (fun n => { n with children := removeAll n.children a }))
            a (fun n => { n with parent := some o }))
            o (fun n => { n with children := n.children ++ [a], isOpen := true }) := by
        simp only [moveNode, hga, hgo, if_neg hra, if_neg hao, if_neg hg1, if_neg hg2,
          hP, hgP, if_pos hPk]
        simp only [hok, ne_eq, not_true_eq_false, if_false, ite_false, ite_true,
          if_pos rfl]
        rw [if_neg (by simpa using hg1), modifyN_modifyN_same]
      rw [hred]
      exact bidir_of_move_transform hwf hga hP
        (getN_isSome_iff.mp (by rw [hgo]; rfl))
        (fun n => { n with children := n.children ++ [a], isOpen := true })
        (fun n => rfl) (fun n => rfl)
        (fun n c => count_append_singleton n.children a c)
    · have hred : moveNode s a o Mode.into = s := by
        simp only [moveNode, hga, hgo, if_neg hra, if_neg hao, if_neg hg1, if_neg hg2,
          hP, hgP, if_pos hPk]
        simp [hok]
      rw [hred]
      exact wf_bidir hwf
  | before =>
    have hTfacts : ∃ tn, getN s (no.parent.getD NId.root) = some tn ∧
        tn.kind = Kind.folder := by
      cases hnp : no.parent with
      | none =>
        obtain ⟨r, hgr, hrk, _⟩ := wf_root hwf
        exact ⟨r, by simpa [hnp] using hgr, hrk⟩
      | some T0 =>
        obtain ⟨_, tn, hgt, htk, _⟩ := wf_parent hwf hgo hnp
        exact ⟨tn, by simpa [hnp] using hgt, htk⟩
    obtain ⟨tn, hgtn, htnk⟩ := hTfacts
    have hgs1T : getN (modifyN s P (fun n => { n with children := removeAll n.children a }))
        (no.parent.getD NId.root) =
        some (if no.parent.getD NId.root = P then
          { tn with children := removeAll tn.children a } else tn) := by
      rw [getN_modifyN]
      by_cases hTP : no.parent.getD NId.root = P
      · simp only [if_pos hTP, hgtn]
        rfl
      · simp only [if_neg hTP, hgtn]
    simp only [moveNode, hga, hgo, if_neg hra, if_neg hao, if_neg hg1, if_neg hg2,
      hP, hgP, if_pos hPk, hgs1T]
    have hmi : ¬ Mode.before = Mode.into := by simp
    rw [if_neg (by simpa using hg2), if_neg hmi]
    have htpk : ¬ ((if no.parent.getD NId.root = P then
        { tn with children := removeAll tn.children a } else tn).kind ≠ Kind.folder) := by
      by_cases hTP : no.parent.getD NId.root = P <;> simp [hTP, htnk]
    rw [if_neg htpk]
    apply bidir_of_move_transform hwf hga hP
      (getN_isSome_iff.mp (by rw [hgtn]; rfl))
    · intro n
      rfl
    · intro n
      rfl
    · intro n c
      exact count_spliceInsert n.children _ a c
  | after =>
    have hTfacts : ∃ tn, getN s (no.parent.getD NId.root) = some tn ∧
        tn.kind = Kind.folder := by
      cases hnp : no.parent with
      | none =>
        obtain ⟨r, hgr, hrk, _⟩ := wf_root hwf
        exact ⟨r, by simpa [hnp] using hgr, hrk⟩
      | some T0 =>
        obtain ⟨_, tn, hgt, htk, _⟩ := wf_parent hwf hgo hnp
        exact ⟨tn, by simpa [hnp] using hgt, htk⟩
    obtain ⟨tn, hgtn, htnk⟩ := hTfacts
    have hgs1T : getN (modifyN s P (fun n => { n with children := removeAll n.children a }))
        (no.parent.getD NId.root) =
        some (if no.parent.getD NId.root = P then
          { tn with children := removeAll tn.children a } else tn) := by
      rw [getN_modifyN]
      by_cases hTP : no.parent.getD NId.root = P
      · simp only [if_pos hTP, hgtn]
        rfl
      · simp only [if_neg hTP, hgtn]
    simp only [moveNode, hga, hgo, if_neg hra, if_neg hao, if_neg hg1, if_neg hg2,
      hP, hgP, if_pos hPk, hgs1T]
    have hmi : ¬ Mode.after = Mode.into := by simp
    rw [if_neg (by simpa using hg2), if_neg hmi]
    have htpk : ¬ ((if no.parent.getD NId.root = P then
        { tn with children := removeAll tn.children a } else tn).kind ≠ Kind.folder) := by
      by_cases hTP : no.parent.getD NId.root = P <;> simp [hTP, htnk]
    rw [if_neg htpk]
    apply bidir_of_move_transform hwf hga hP
      (getN_isSome_iff.mp (by rw [hgtn]; rfl))
    · intro n
      rfl
    · intro n
      rfl
    · intro n c
      exact count_spliceInsert n.children _ a c

theorem bidir_modify_irrelevant {s : Store} (hb : BidirOK s) (i : NId) (f : Node → Node)
    (hf : ∀ n, (f n).parent = n.parent ∧ (f n).kind = n.kind ∧ (f n).children = n.children) :
    BidirOK (modifyN s i f) := by
  constructor
  · intro j nj' p' hgj' hp'
    rw [getN_modifyN] at hgj'
    have hrec : ∃ nj, getN s j = some nj ∧ nj.parent = some p' := by
      by_cases hj : j = i
      · rw [if_pos hj] at hgj'
        obtain ⟨nj, hgj, he⟩ := Option.map_eq_some'.mp hgj'
        exact ⟨nj, hgj, by rw [← (hf nj).1, he, hp']⟩
      · rw [if_neg hj] at hgj'
        exact ⟨nj', hgj', hp'⟩
    obtain ⟨nj, hgj, hpj⟩ := hrec
    obtain ⟨pn, hgp, hcnt⟩ := hb.1 j nj p' hgj hpj
    refine ⟨if p' = i then f pn else pn, ?_, ?_⟩
    · rw [getN_modifyN]
      by_cases hp : p' = i
      · simp only [if_pos hp, hgp, Option.map_some']
      · simp only [if_neg hp, hgp]
    · by_cases hp : p' = i <;> simp [hp, (hf pn).2.2, hcnt]
  · intro j nj' c hgj' hk' hc
    rw [getN_modifyN] at hgj'
    have hrec : ∃ nj, getN s j = some nj ∧ nj.kind = Kind.folder ∧ c ∈ nj.children := by
      by_cases hj : j = i
      · rw [if_pos hj] at hgj'
        obtain ⟨nj, hgj, he⟩ := Option.map_eq_some'.mp hgj'
        refine ⟨nj, hgj, ?_, ?_⟩
        · rw [← (hf nj).2.1, he, hk']
        · rw [← (hf nj).2.2, he]
          exact hc
      · rw [if_neg hj] at hgj'
        exact ⟨nj', hgj', hk', hc⟩
    obtain ⟨nj, hgj, hkj, hcj⟩ := hrec
    obtain ⟨cn, hgc, hcp⟩ := hb.2 j nj c hgj hkj hcj
    refine ⟨if c = i then f cn else cn, ?_, ?_⟩
    · rw [getN_modifyN]
      by_cases hci : c = i
      · simp only [if_pos hci, hgc, Option.map_some']
      · simp only [if_neg hci, hgc]
    · by_cases hci : c = i <;> simp [hci, (hf cn).1, hcp]

theorem rename_bidir {s : Store} (hwf : WF s) (i : NId) (nm : String) :
    BidirOK (rename s i nm) := by
  unfold rename
  by_cases ht : jsTrim nm = ""
  · rw [if_pos ht]
    exact wf_bidir hwf
  · rw [if_neg ht]
    cases hg : getN s i with
    | none => exact wf_bidir hwf
    | some n =>
      exact bidir_modify_irrelevant (wf_bidir hwf) i _ (fun n => ⟨rfl, rfl, rfl⟩)

theorem toggle_bidir {s : Store} (hwf : WF s) (i : NId) :
    BidirOK (toggleFolder s i) := by
  unfold toggleFolder
  cases hg : getN s i with
  | none => exact wf_bidir hwf
  | some n =>
    simp only []
    by_cases hk : n.kind = Kind.folder
    · simp only [if_pos hk]
      exact bidir_modify_irrelevant (wf_bidir hwf) i _ (fun n => ⟨rfl, rfl, rfl⟩)
    · simp only [if_neg hk]
      exact wf_bidir hwf

theorem bidir_add {s : Store} (hwf : WF s) {pid newId : NId} {pn : Node}
    (hgp : getN s pid = some pn) (hpk : pn.kind = Kind.folder)
    (hfresh : ¬ newId ∈ keys s) (node : Node)
    (hnp : node.parent = some pid) (hnc : node.children = []) :
    BidirOK (modifyN (setN s newId node) pid
      (fun n => { n with children := n.children ++ [newId], isOpen := true })) := by
  have hpfresh : ¬ pid = newId := by
    intro he
    exact hfresh (he ▸ getN_isSome_iff.mp (by rw [hgp]; rfl))
  have hnp2 : ¬ newId = pid := fun h => hpfresh h.symm
  have hget : ∀ j, getN (modifyN (setN s newId node) pid
      (fun n => { n with children := n.children ++ [newId], isOpen := true })) j =
      if j = newId then some node
      else if j = pid then (getN s j).map
        (fun n => { n with children := n.children ++ [newId], isOpen := true })
      else getN s j := by
    intro j
    rw [getN_modifyN, getN_setN]
    by_cases hj : j = newId
    · simp [hj, hnp2]
    · by_cases hjp : j = pid
      · simp [hj, hjp, hpfresh]
      · simp [hj, hjp]
  have hmemkeys : ∀ {x : NId} {nx : Node}, getN s x = some nx → ¬ x = newId := by
    intro x nx hgx he
    exact hfresh (he ▸ getN_isSome_iff.mp (by rw [hgx]; rfl))
  have hnotchild : ¬ newId ∈ pn.children := by
    intro hmem
    obtain ⟨cn, hgc, _⟩ := wf_children hwf hgp hpk hmem
    exact hmemkeys hgc rfl
  constructor
  · intro j nj' p' hgj' hp'
    rw [hget j] at hgj'
    by_cases hj : j = newId
    · rw [if_pos hj] at hgj'
      injection hgj' with he
      have hp'pid : p' = pid := by
        rw [← he, hnp] at hp'
        injection hp' with h2
        exact h2.symm
      subst hp'pid
      refine ⟨{ pn with children := pn.children ++ [newId], isOpen := true }, ?_, ?_⟩
      · rw [hget p', if_neg hpfresh, if_pos rfl, hgp]
        rfl
      · show List.count j (pn.children ++ [newId]) = 1
        rw [hj, count_append_singleton, List.count_eq_zero.mpr hnotchild]
        simp
    · rw [if_neg hj] at hgj'
      by_cases hjp : j = pid
      · rw [if_pos hjp] at hgj'
        obtain ⟨nj, hgj, he⟩ := Option.map_eq_some'.mp hgj'
        have hpj : nj.parent = some p' := by
          rw [← he] at hp'
          exact hp'
        obtain ⟨hjroot, pn'', hgp'', hpk'', hcnt⟩ := wf_parent hwf hgj hpj
        have hp'new : ¬ p' = newId := hmemkeys hgp''
        refine ⟨if p' = pid then { pn'' with children := pn''.children ++ [newId], isOpen := true } else pn'', ?_, ?_⟩
        · rw [hget p', if_neg hp'new]
          by_cases hp2 : p' = pid
          · rw [if_pos hp2, if_pos hp2, hgp'']
            rfl
          · rw [if_neg hp2, if_neg hp2, hgp'']
        · by_cases hp2 : p' = pid
          · simp only [if_pos hp2, count_append_singleton]
            rw [hcnt, if_neg hj]
          · simp only [if_neg hp2]
            exact hcnt
      · rw [if_neg hjp] at hgj'
        obtain ⟨hjroot, pn'', hgp'', hpk'', hcnt⟩ := wf_parent hwf hgj' hp'
        have hp'new : ¬ p' = newId := hmemkeys hgp''
        refine ⟨if p' = pid then { pn'' with children := pn''.children ++ [newId], isOpen := true } else pn'', ?_, ?_⟩
        · rw [hget p', if_neg hp'new]
          by_cases hp2 : p' = pid
          · rw [if_pos hp2, if_pos hp2, hgp'']
            rfl
          · rw [if_neg hp2, if_neg hp2, hgp'']
        · by_cases hp2 : p' = pid
          · simp only [if_pos hp2, count_append_singleton]
            rw [hcnt, if_neg hj]
          · simp only [if_neg hp2]
            exact hcnt
  · intro j nj' c hgj' hk' hc
    rw [hget j] at hgj'
    by_cases hj : j = newId
    · rw [if_pos hj] at hgj'
      injection hgj' with he
      rw [← he, hnc] at hc
      simp at hc
    · rw [if_neg hj] at hgj'
      by_cases hjp : j = pid
      · rw [if_pos hjp] at hgj'
        obtain ⟨nj, hgj, he⟩ := Option.map_eq_some'.mp hgj'
        have hknj : nj.kind = Kind.folder := by
          rw [← he] at hk'
          exact hk'
        have hcj : c ∈ nj.children ++ [newId] := by
          rw [← he] at hc
          exact hc
        rcases List.mem_append.mp hcj with hcm | hcm
        · obtain ⟨cn, hgc, hcp⟩ := wf_children hwf hgj hknj hcm
          have hcnew : ¬ c = newId := hmemkeys hgc
          refine ⟨if c = pid then { cn with children := cn.children ++ [newId], isOpen := true } else cn, ?_, ?_⟩
          · rw [hget c, if_neg hcnew]
            by_cases hc2 : c = pid
            · rw [if_pos hc2, if_pos hc2, hgc]
              rfl
            · rw [if_neg hc2, if_neg hc2, hgc]
          · by_cases hc2 : c = pid <;> simp [hc2, hcp]
        · simp only [List.mem_singleton] at hcm
          refine ⟨node, ?_, ?_⟩
          · rw [hget c, if_pos hcm]
          · rw [hnp, hjp]
      · rw [if_neg hjp] at hgj'
        obtain ⟨cn, hgc, hcp⟩ := wf_children hwf hgj' hk' hc
        have hcnew : ¬ c = newId := hmemkeys hgc
        refine ⟨if c = pid then { cn with children := cn.children ++ [newId], isOpen := true } else cn, ?_, ?_⟩
        · rw [hget c, if_neg hcnew]
          by_cases hc2 : c = pid
          · rw [if_pos hc2, if_pos hc2, hgc]
            rfl
          · rw [if_neg hc2, if_neg hc2, hgc]
        · by_cases hc2 : c = pid <;> simp [hc2, hcp]

theorem addItem_bidir {s : Store} (hwf : WF s) (k : Kind) (nm : String) (pid newId : NId)
    (hfresh : ¬ newId ∈ keys s) : BidirOK (addItem s k nm pid newId) := by
  unfold addItem
  by_cases ht : jsTrim nm = ""
  · rw [if_pos ht]
    exact wf_bidir hwf
  rw [if_neg ht]
  cases hgp : getN s pid with
  | none => exact wf_bidir hwf
  | some pn =>
    simp only []
    by_cases hpk : pn.kind = Kind.folder
    · rw [if_neg (by simp [hpk] : ¬ pn.kind ≠ Kind.folder)]
      rw [modifyN_modifyN_same]
      cases k with
      | folder => exact bidir_add hwf hgp hpk hfresh _ rfl rfl
      | file => exact bidir_add hwf hgp hpk hfresh _ rfl rfl
    · rw [if_pos (by simp [hpk] : pn.kind ≠ Kind.folder)]
      exact wf_bidir hwf

theorem removeSubtree_bidir {s : Store} (hwf : WF s) (i0 : NId) (hroot : ¬ i0 = NId.root) :
    BidirOK (removeSubtree s i0) := by
  cases hg : getN s i0 with
  | none =>
    rw [removeSubtree_absent hg]
    exact wf_bidir hwf
  | some n0 =>
    obtain ⟨P, pn, hP, hgP, hPk, hPc⟩ := wf_parent_of_ne_root hwf hg hroot
    have hok : bfsOK s s.length [i0] = true := bfs_ok_seed hwf hg
    have hrootstack : ¬ NId.root ∈ bfs s s.length [i0] := by
      intro hmem
      rcases bfs_origin s.length [i0] NId.root hmem with h1 | ⟨p, hp, hpc⟩
      · simp at h1
        exact hroot h1.symm
      · obtain ⟨np, hgnp, hknp, hcnp⟩ := mem_folderChildren.mp hpc
        obtain ⟨cn, hgc, hcp⟩ := wf_children hwf hgnp hknp hcnp
        obtain ⟨r, hgr, _, hrp⟩ := wf_root hwf
        rw [hgr] at hgc
        injection hgc with he
        rw [he] at hrp
        rw [hrp] at hcp
        exact Option.noConfusion hcp
    obtain ⟨d0, hd0⟩ := Option.isSome_iff_exists.mp (wf_hops hwf hg)
    have hdepth : ∀ x ∈ bfs s s.length [i0], ∃ dx, hops s s.length x = some dx ∧ d0 ≤ dx := by
      apply bfs_depth_lb hwf d0
      intro y hy
      simp only [List.mem_singleton] at hy
      subst hy
      exact ⟨d0, hd0, le_refl _⟩
    obtain ⟨dP, hdP, hdio⟩ := depth_child hwf hg hP
    have hd0eq : d0 = dP + 1 := by
      rw [hd0] at hdio
      injection hdio
    have hPstack : ¬ P ∈ bfs s s.length [i0] := by
      intro hmem
      obtain ⟨dx, hdx, hle⟩ := hdepth P hmem
      rw [hdP] at hdx
      injection hdx with he
      omega
    have hi0stack : i0 ∈ bfs s s.length [i0] :=
      bfs_mem_of_mem_queue _ _ hok i0 (List.mem_singleton.mpr rfl)
    have hclosed := @bfs_children_closed s s.length [i0] hok
    have hgres : ∀ j, getN (removeSubtree s i0) j =
        if j ∈ bfs s s.length [i0] then none
        else if j = P then some { pn with children := removeAll pn.children i0 }
        else getN s j := by
      intro j
      unfold removeSubtree
      rw [hg]
      simp only [Option.some_bind, hP, hgP, if_pos hPk]
      rw [getN_foldl_erase]
      by_cases hj : j ∈ bfs s s.length [i0]
      · rw [if_pos ⟨hj, fun he => hrootstack (he ▸ hj)⟩, if_pos hj]
      · rw [if_neg (fun hand => hj hand.1), if_neg hj, getN_modifyN]
        by_cases hjP : j = P
        · rw [if_pos hjP, if_pos hjP, hjP, hgP]
          rfl
        · rw [if_neg hjP, if_neg hjP]
    -- children of an uncollected folder are uncollected
    have hchild_free : ∀ {j : NId} {nj : Node} {c : NId}, ¬ j ∈ bfs s s.length [i0] →
        getN s c = some nj → nj.parent = some j → ¬ c = i0 → ¬ c ∈ bfs s s.length [i0] := by
      intro j nj c hj hgc hcp hci0 hmem
      rcases bfs_origin s.length [i0] c hmem with h1 | ⟨q, hq, hqc⟩
      · simp only [List.mem_singleton] at h1
        exact hci0 h1
      · obtain ⟨nq, hgnq, hknq, hcnq⟩ := mem_folderChildren.mp hqc
        obtain ⟨cn2, hgc2, hcp2⟩ := wf_children hwf hgnq hknq hcnq
        rw [hgc] at hgc2
        injection hgc2 with he
        rw [← he] at hcp2
        rw [hcp2] at hcp
        injection hcp with he2
        exact hj (he2 ▸ hq)
    constructor
    · intro j nj' p' hgj' hp'
      rw [hgres j] at hgj'
      by_cases hj : j ∈ bfs s s.length [i0]
      · rw [if_pos hj] at hgj'
        exact Option.noConfusion hgj'
      rw [if_neg hj] at hgj'
      by_cases hjP : j = P
      · rw [if_pos hjP] at hgj'
        injection hgj' with he
        have hpp : pn.parent = some p' := by
          rw [← he] at hp'
          exact hp'
        obtain ⟨_, pn2, hgp2, hpk2, hcnt2⟩ := wf_parent hwf hgP hpp
        have hp'free : ¬ p' ∈ bfs s s.length [i0] := by
          intro hmem
          have : P ∈ folderChildren s p' := by
            apply mem_folderChildren.mpr
            exact ⟨pn2, hgp2, hpk2, List.count_pos_iff_mem.mp (by omega)⟩
          exact hPstack (hclosed p' hmem P this)
        have hp'P : ¬ p' = P := by
          intro he2
          exact wf_no_self_parent hwf hgP (he2 ▸ hpp)
        refine ⟨pn2, ?_, ?_⟩
        · rw [hgres p', if_neg hp'free, if_neg hp'P]
          exact hgp2
        · rw [hjP]
          exact hcnt2
      · rw [if_neg hjP] at hgj'
        obtain ⟨_, pn2, hgp2, hpk2, hcnt2⟩ := wf_parent hwf hgj' hp'
        have hp'free : ¬ p' ∈ bfs s s.length [i0] := by
          intro hmem
          have : j ∈ folderChildren s p' := by
            apply mem_folderChildren.mpr
            exact ⟨pn2, hgp2, hpk2, List.count_pos_iff_mem.mp (by omega)⟩
          exact hj (hclosed p' hmem j this)
        by_cases hp'P : p' = P
        · refine ⟨{ pn with children := removeAll pn.children i0 }, ?_, ?_⟩
          · rw [hgres p', if_neg hp'free, if_pos hp'P]
          · have hji0 : ¬ j = i0 := fun he => hj (he ▸ hi0stack)
            have hpn2pn : pn2 = pn := by
              rw [hp'P, hgP] at hgp2
              injection hgp2 with he
              exact he.symm
            simp only [count_removeAll, if_neg hji0]
            rw [← hpn2pn]
            exact hcnt2
        · refine ⟨pn2, ?_, ?_⟩
          · rw [hgres p', if_neg hp'free, if_neg hp'P]
            exact hgp2
          · exact hcnt2
    · intro j nj' c hgj' hk' hc
      rw [hgres j] at hgj'
      by_cases hj : j ∈ bfs s s.length [i0]
      · rw [if_pos hj] at hgj'
        exact Option.noConfusion hgj'
      rw [if_neg hj] at hgj'
      by_cases hjP : j = P
      · rw [if_pos hjP] at hgj'
        injection hgj' with he
        have hkpn : pn.kind = Kind.folder := hPk
        have hcm : c ∈ removeAll pn.children i0 := by
          rw [← he] at hc
          exact hc
        obtain ⟨hcmem, hci0⟩ := mem_removeAll.mp hcm
        obtain ⟨cn, hgc, hcp⟩ := wf_children hwf hgP hkpn hcmem
        have hcfree : ¬ c ∈ bfs s s.length [i0] :=
          hchild_free hPstack hgc hcp hci0
        have hcP : ¬ c = P := by
          intro he2
          rw [he2, hgP] at hgc
          injection hgc with he3
          apply wf_no_self_parent hwf hgP
          rw [he3]
          exact hcp
        refine ⟨cn, ?_, ?_⟩
        · rw [hgres c, if_neg hcfree, if_neg hcP]
          exact hgc
        · rw [hjP]
          exact hcp
      · rw [if_neg hjP] at hgj'
        obtain ⟨cn, hgc, hcp⟩ := wf_children hwf hgj' hk' hc
        have hci0 : ¬ c = i0 := by
          intro he2
          rw [he2, hg] at hgc
          injection hgc with he3
          rw [← he3] at hcp
          rw [hP] at hcp
          injection hcp with he4
          exact hjP he4.symm
        have hcfree : ¬ c ∈ bfs s s.length [i0] :=
          hchild_free hj hgc hcp hci0
        by_cases hcP : c = P
        · refine ⟨{ pn with children := removeAll pn.children i0 }, ?_, ?_⟩
          · rw [hgres c, if_neg hcfree, if_pos hcP]
          · have : cn = pn := by
              rw [hcP, hgP] at hgc
              injection hgc with he
              exact he.symm
            rw [← this]
            exact hcp
        · refine ⟨cn, ?_, ?_⟩
          · rw [hgres c, if_neg hcfree, if_neg hcP]
            exact hgc
          · exact hcp

/-- C5: amended bidirectional-consistency claim. Starting from any store satisfying
the structural invariant, every single application of addItem (with a freshly
generated id not present in the store), saveRename, toggleFolder, and moveNode with
arbitrary arguments preserves bidirectional consistency (every non-root node's
parent exists and lists it exactly once among its children, and every child listed
by a folder exists and points back to it); removeSubtree preserves it for every
non-root nodeId. The original claim's unrestricted removeSubtree clause fails at
the root (see the counterexample theorem). -/
theorem C5_mutators_preserve_bidir {s : Store} (hwf : WF s) :
    (∀ k nm pid newId, ¬ newId ∈ keys s → BidirOK (addItem s k nm pid newId)) ∧
    (∀ i nm, BidirOK (rename s i nm)) ∧
    (∀ i, BidirOK (toggleFolder s i)) ∧
    (∀ a o m, BidirOK (moveNode s a o m)) ∧
    (∀ i, ¬ i = NId.root → BidirOK (removeSubtree s i)) := by
  refine ⟨?_, ?_, ?_, ?_, ?_⟩
  · intro k nm pid newId hfresh
    exact addItem_bidir hwf k nm pid newId hfresh
  · intro i nm
    exact rename_bidir hwf i nm
  · intro i
    exact toggle_bidir hwf i
  · intro a o m
    exact moveNode_bidir hwf a o m
  · intro i hi
    exact removeSubtree_bidir hwf i hi

theorem C5_mutators_preserve_bidir_witness :
    WF sampleAB ∧ BidirOK (moveNode sampleAB (NId.gen 0) (NId.gen 1) Mode.into) := by
  have hwf : WF sampleAB := by decide
  exact ⟨hwf, (C5_mutators_preserve_bidir hwf).2.2.2.1 (NId.gen 0) (NId.gen 1) Mode.into⟩

theorem nsize_pos : ∀ c : Nested, 1 ≤ nsize c := by
  intro c
  cases c with
  | file n => simp [nsize]
  | folder n cs => simp [nsize]

theorem nsizeL_eq_zero {cs : List Nested} (h : nsizeL cs = 0) : cs = [] := by
  cases cs with
  | nil => rfl
  | cons c rest =>
    have := nsize_pos c
    simp [nsizeL] at h
    omega

mutual
/-- The composite renaming `buildFromNested` applies below the root: every
falsy (empty) name is replaced by `"untitled"`. -/
def withDefaults : Nested → Nested
  | Nested.file n => Nested.file (nameOr "untitled" n)
  | Nested.folder n cs => Nested.folder (nameOr "untitled" n) (withDefaultsL cs)
def withDefaultsL : List Nested → List Nested
  | [] => []
  | c :: rest => withDefaults c :: withDefaultsL rest
end

/-- Truthiness of a JS string: non-empty. -/
def nonemptyS (n : String) : Bool :=
  if n = "" then false else true

mutual
/-- Every name in the nested payload is truthy (no default kicks in). -/
def namesOK : Nested → Bool
  | Nested.file n => nonemptyS n
  | Nested.folder n cs => nonemptyS n && namesOKL cs
def namesOKL : List Nested → Bool
  | [] => true
  | c :: rest => namesOK c && namesOKL rest
end

theorem withDefaults_namesOK_aux : ∀ N : Nat,
    (∀ c : Nested, nsize c ≤ N → namesOK c = true → withDefaults c = c) ∧
    (∀ cs : List Nested, nsizeL cs ≤ N → namesOKL cs = true → withDefaultsL cs = cs) := by
  intro N
  induction N with
  | zero =>
    constructor
    · intro c hsz
      have := nsize_pos c
      omega
    · intro cs hsz _
      rw [nsizeL_eq_zero (Nat.le_zero.mp hsz)]
      rfl
  | succ N IH =>
    obtain ⟨ihO, ihL⟩ := IH
    have HO : ∀ c : Nested, nsize c ≤ N + 1 → namesOK c = true → withDefaults c = c := by
      intro c hsz hok
      cases c with
      | file n =>
        simp only [namesOK, nonemptyS] at hok
        simp only [withDefaults, nameOr]
        split at hok
        · exact absurd hok (by simp)
        · rw [if_neg (by assumption)]
      | folder n cs =>
        simp only [namesOK, Bool.and_eq_true] at hok
        simp only [withDefaults, nameOr]
        have h1 : ¬ n = "" := by
          have := hok.1
          simp only [nonemptyS] at this
          split at this
          · exact absurd this (by simp)
          · assumption
        rw [if_neg h1, ihL cs (by simp [nsize] at hsz; omega) hok.2]
    refine ⟨HO, ?_⟩
    intro cs hsz hok
    cases cs with
    | nil => rfl
    | cons c rest =>
      simp only [namesOKL, Bool.and_eq_true] at hok
      simp only [withDefaultsL]
      have hc := nsize_pos c
      simp only [nsizeL] at hsz
      rw [HO c (by omega) hok.1, ihL rest (by omega) hok.2]

/-- No generated id at or above the counter value is bound in the store. -/
def keysBelow (s : Store) (k : Nat) : Prop :=
  ∀ m, k ≤ m → getN s (NId.gen m) = none

theorem toNestedL_nil (s : Store) (f : Nat) : toNestedL s f [] = some [] := by
  cases f <;> rfl

/-- Postcondition of one `addChildren` body iteration (`addOneB c p s k`):
counter advance, key range, the parent gained exactly the new child id at the
end of its list, all other untouched ids are unchanged, and the created subtree
reads back (in any store agreeing on the freshly generated id range) as the
name-defaulted payload. -/
def buildO (c : Nested) (p : NId) (s : Store) (k : Nat) (np : Node) : Prop :=
  (addOneB c p s k).2 = k + nsize c ∧
  keysBelow (addOneB c p s k).1 (k + nsize c) ∧
  getN (addOneB c p s k).1 p = some { np with children := np.children ++ [NId.gen k] } ∧
  (∀ j, ¬ j = p → (∀ m, k ≤ m → ¬ j = NId.gen m) → getN (addOneB c p s k).1 j = getN s j) ∧
  (∀ s2 f l tl,
    (∀ m, k ≤ m → m < k + nsize c →
      getN s2 (NId.gen m) = getN (addOneB c p s k).1 (NId.gen m)) →
    nsize c ≤ f + 1 → toNestedL s2 f l = some tl →
    toNestedL s2 (f + 1) (NId.gen k :: l) = some (withDefaults c :: tl))

/-- Postcondition of `addChildrenB cs p s k` (the `forEach` over a sibling
list), mirroring `buildO` with `topIds cs k` as the appended id block. -/
def buildL (cs : List Nested) (p : NId) (s : Store) (k : Nat) (np : Node) : Prop :=
  (addChildrenB cs p s k).2 = k + nsizeL cs ∧
  keysBelow (addChildrenB cs p s k).1 (k + nsizeL cs) ∧
  getN (addChildrenB cs p s k).1 p = some { np with children := np.children ++ topIds cs k } ∧
  (∀ j, ¬ j = p → (∀ m, k ≤ m → ¬ j = NId.gen m) → getN (addChildrenB cs p s k).1 j = getN s j) ∧
  (∀ s2 f,
    (∀ m, k ≤ m → m < k + nsizeL cs →
      getN s2 (NId.gen m) = getN (addChildrenB cs p s k).1 (NId.gen m)) →
    nsizeL cs ≤ f → toNestedL s2 f (topIds cs k) = some (withDefaultsL cs))

theorem buildL_nil (p : NId) (s : Store) (k : Nat) (np : Node) (hkb : keysBelow s k)
    (hp : getN s p = some np) : buildL [] p s k np := by
  unfold buildL
  refine ⟨by simp [addChildrenB, nsizeL], ?_, ?_, ?_, ?_⟩
  · intro m hm
    simp only [addChildrenB]
    exact hkb m (by omega)
  · simp only [addChildrenB, topIds, List.append_nil]
    exact hp
  · intro j _ _
    rfl
  · intro s2 f _ _
    simp only [topIds, withDefaultsL]
    exact toNestedL_nil s2 f

theorem build_spec : ∀ N : Nat,
    (∀ c p s k np, nsize c ≤ N → keysBelow s k → getN s p = some np → buildO c p s k np) ∧
    (∀ cs p s k np, nsizeL cs ≤ N → keysBelow s k → getN s p = some np → buildL cs p s k np) := by
  intro N
  induction N with
  | zero =>
    constructor
    · intro c p s k np hsz
      have := nsize_pos c
      omega
    · intro cs p s k np hsz hkb hp
      rw [nsizeL_eq_zero (Nat.le_zero.mp hsz)]
      exact buildL_nil p s k np hkb hp
  | succ N IH =>
    obtain ⟨ihO, ihL⟩ := IH
    have HO : ∀ c p s k np, nsize c ≤ N + 1 → keysBelow s k → getN s p = some np →
        buildO c p s k np := by
      intro c p s k np hsz hkb hp
      have hpne : ∀ m, k ≤ m → ¬ p = NId.gen m := by
        intro m hm he
        rw [he, hkb m hm] at hp
        exact Option.noConfusion hp
      cases c with
      | file name =>
        unfold buildO
        simp only [addOneB, nsize]
        refine ⟨by trivial, ?_, ?_, ?_, ?_⟩
        · intro m hm
          rw [getN_modifyN, if_neg (fun he => hpne m (by omega) he.symm), getN_setN,
            if_neg (fun he => by injection he with h2; omega)]
          exact hkb m (by omega)
        · rw [getN_modifyN, if_pos rfl, getN_setN, if_neg (hpne k (Nat.le_refl k)), hp]
          rfl
        · intro j hjp hjg
          rw [getN_modifyN, if_neg hjp, getN_setN, if_neg (hjg k (Nat.le_refl k))]
        · intro s2 f l tl hagree hf hl
          have hg2 : getN s2 (NId.gen k) =
              some { kind := Kind.file, name := nameOr "untitled" name,
                     parent := some p, children := [], isOpen := false } := by
            rw [hagree k (Nat.le_refl k) (by omega), getN_modifyN,
              if_neg (fun he => hpne k (Nat.le_refl k) he.symm), getN_setN, if_pos rfl]
          simp only [toNestedL, hg2, hl, withDefaults]
      | folder name cs =>
        have hsz' : nsizeL cs ≤ N := by
          simp only [nsize] at hsz
          omega
        have hkb2 : keysBelow (modifyN (setN s (NId.gen k)
            { kind := Kind.folder, name := nameOr "untitled" name,
              parent := some p, children := [], isOpen := true }) p
            (fun n => { n with children := n.children ++ [NId.gen k] })) (k + 1) := by
          intro m hm
          rw [getN_modifyN, if_neg (fun he => hpne m (by omega) he.symm), getN_setN,
            if_neg (fun he => by injection he with h2; omega)]
          exact hkb m (by omega)
        have hp2 : getN (modifyN (setN s (NId.gen k)
            { kind := Kind.folder, name := nameOr "untitled" name,
              parent := some p, children := [], isOpen := true }) p
            (fun n => { n with children := n.children ++ [NId.gen k] })) (NId.gen k) =
            some { kind := Kind.folder, name := nameOr "untitled" name,
                   parent := some p, children := [], isOpen := true } := by
          rw [getN_modifyN, if_neg (fun he => hpne k (Nat.le_refl k) he.symm), getN_setN,
            if_pos rfl]
        obtain ⟨L1, L2, L3, L4, L5⟩ := ihL cs (NId.gen k) _ (k + 1) _ hsz' hkb2 hp2
        have hred : addOneB (Nested.folder name cs) p s k =
            addChildrenB cs (NId.gen k) (modifyN (setN s (NId.gen k)
              { kind := Kind.folder, name := nameOr "untitled" name,
                parent := some p, children := [], isOpen := true }) p
              (fun n => { n with children := n.children ++ [NId.gen k] })) (k + 1) := rfl
        have hsizeeq : nsize (Nested.folder name cs) = 1 + nsizeL cs := rfl
        unfold buildO
        rw [hred]
        refine ⟨?_, ?_, ?_, ?_, ?_⟩
        · rw [L1, hsizeeq]
          omega
        · intro m hm
          rw [hsizeeq] at hm
          exact L2 m (by omega)
        · rw [L4 p (hpne k (Nat.le_refl k)) (fun m hm => hpne m (by omega)),
            getN_modifyN, if_pos rfl, getN_setN, if_neg (hpne k (Nat.le_refl k)), hp]
          rfl
        · intro j hjp hjg
          rw [L4 j (hjg k (Nat.le_refl k)) (fun m hm => hjg m (by omega)),
            getN_modifyN, if_neg hjp, getN_setN, if_neg (hjg k (Nat.le_refl k))]
        · intro s2 f l tl hagree hf hl
          rw [hsizeeq] at hagree hf
          have hgk : getN s2 (NId.gen k) =
              some { kind := Kind.folder, name := nameOr "untitled" name,
                     parent := some p, children := topIds cs (k + 1), isOpen := true } := by
            rw [hagree k (Nat.le_refl k) (by omega), L3]
            simp
          have hcs : toNestedL s2 f (topIds cs (k + 1)) = some (withDefaultsL cs) := by
            apply L5 s2 f
            · intro m hm1 hm2
              exact hagree m (by omega) (by omega)
            · omega
          simp only [toNestedL, hgk, hcs, hl, withDefaults]
    refine ⟨HO, ?_⟩
    intro cs p s k np hsz hkb hp
    cases cs with
    | nil => exact buildL_nil p s k np hkb hp
    | cons c rest =>
      have hpne : ∀ m, k ≤ m → ¬ p = NId.gen m := by
        intro m hm he
        rw [he, hkb m hm] at hp
        exact Option.noConfusion hp
      have hc1 := nsize_pos c
      have hszeq : nsizeL (c :: rest) = nsize c + nsizeL rest := rfl
      have hszc : nsize c ≤ N + 1 := by
        rw [hszeq] at hsz
        omega
      obtain ⟨O1, O2, O3, O4, O5⟩ := HO c p s k np hszc hkb hp
      have hszr : nsizeL rest ≤ N := by
        rw [hszeq] at hsz
        omega
      obtain ⟨L1, L2, L3, L4, L5⟩ := ihL rest p _ (k + nsize c) _ hszr O2 O3
      have hred : addChildrenB (c :: rest) p s k =
          addChildrenB rest p (addOneB c p s k).1 (k + nsize c) := by
        simp only [addChildrenB]
        rw [O1]
      unfold buildL
      rw [hred]
      refine ⟨?_, ?_, ?_, ?_, ?_⟩
      · rw [L1, hszeq]
        omega
      · intro m hm
        rw [hszeq] at hm
        exact L2 m (by omega)
      · rw [L3]
        simp only [topIds, List.append_assoc, List.singleton_append]
      · intro j hjp hjg
        rw [L4 j hjp (fun m hm => hjg m (by omega)), O4 j hjp hjg]
      · intro s2 f hagree hf
        rw [hszeq] at hagree hf
        have hf1 : 1 ≤ f := by omega
        obtain ⟨f', rfl⟩ : ∃ f', f = f' + 1 := ⟨f - 1, by omega⟩
        have hstable : ∀ m, k ≤ m → m < k + nsize c →
            getN (addChildrenB rest p (addOneB c p s k).1 (k + nsize c)).1 (NId.gen m) =
            getN (addOneB c p s k).1 (NId.gen m) := by
          intro m hm1 hm2
          exact L4 (NId.gen m) (fun he => hpne m hm1 he.symm)
            (fun m' hm' he => by injection he with h2; omega)
        have htail : toNestedL s2 f' (topIds rest (k + nsize c)) = some (withDefaultsL rest) := by
          apply L5 s2 f'
          · intro m hm1 hm2
            exact hagree m (by omega) (by omega)
          · omega
        have hhead := O5 s2 f' (topIds rest (k + nsize c)) (withDefaultsL rest)
          (fun m hm1 hm2 => by rw [hagree m hm1 (by omega)]; exact hstable m hm1 hm2)
          (by omega) htail
        simp only [topIds, withDefaultsL]
        exact hhead

/-- Rebuilding a folder payload and re-exporting yields the payload with the
source's name defaults applied (root `|| "PROJECT"`, children `|| "untitled"`). -/
theorem buildFromNested_toNested (nm : String) (cs : List Nested) :
    toNested (buildFromNested (Nested.folder nm cs)) (nsizeL cs) NId.root =
      some (Nested.folder (nameOr "PROJECT" nm) (withDefaultsL cs)) := by
  have hkb0 : keysBelow (modifyN defaultState NId.root
      (fun n => { n with name := nameOr "PROJECT" nm })) 0 := by
    intro m _
    rfl
  have hp0 : getN (modifyN defaultState NId.root
      (fun n => { n with name := nameOr "PROJECT" nm })) NId.root =
      some { kind := Kind.folder, name := nameOr "PROJECT" nm,
             parent := none, children := [], isOpen := true } := rfl
  obtain ⟨L1, L2, L3, L4, L5⟩ :=
    (build_spec (nsizeL cs)).2 cs NId.root _ 0 _ (Nat.le_refl _) hkb0 hp0
  have hbe : buildFromNested (Nested.folder nm cs) =
      (addChildrenB cs NId.root (modifyN defaultState NId.root
        (fun n => { n with name := nameOr "PROJECT" nm })) 0).1 := rfl
  have hroot : getN (buildFromNested (Nested.folder nm cs)) NId.root =
      some { kind := Kind.folder, name := nameOr "PROJECT" nm,
             parent := none, children := topIds cs 0, isOpen := true } := by
    rw [hbe, L3]
    simp
  have hcs : toNestedL (buildFromNested (Nested.folder nm cs)) (nsizeL cs) (topIds cs 0) =
      some (withDefaultsL cs) := by
    rw [hbe]
    exact L5 _ (nsizeL cs) (fun m _ _ => rfl) (Nat.le_refl _)
  simp only [toNested, hroot, hcs]
  rfl

/-- Every name exported by `toNested` comes from a node of the store, so all
exported names are non-empty whenever all stored names are. -/
theorem toNestedL_namesOK {s : Store} (hn : ∀ i n, getN s i = some n → ¬ n.name = "") :
    ∀ fuel l tl, toNestedL s fuel l = some tl → namesOKL tl = true := by
  intro fuel
  induction fuel with
  | zero =>
    intro l tl h
    cases l with
    | nil =>
      injection h with he
      rw [← he]
      rfl
    | cons i rest => exact Option.noConfusion h
  | succ f ih =>
    intro l tl h
    cases l with
    | nil =>
      injection h with he
      rw [← he]
      rfl
    | cons i rest =>
      cases hg : getN s i with
      | none =>
        simp only [toNestedL, hg] at h
        exact Option.noConfusion h
      | some n =>
        simp only [toNestedL, hg] at h
        have hnm : nonemptyS n.name = true := by
          simp only [nonemptyS]
          rw [if_neg (hn i n hg)]
        cases hk : n.kind with
        | file =>
          simp only [hk] at h
          cases hrest : toNestedL s f rest with
          | none =>
            simp only [hrest] at h
            exact Option.noConfusion h
          | some tl2 =>
            simp only [hrest, Option.some.injEq] at h
            rw [← h]
            simp only [namesOKL, namesOK, Bool.and_eq_true]
            exact ⟨hnm, ih rest tl2 hrest⟩
        | folder =>
          simp only [hk] at h
          cases hcl : toNestedL s f n.children with
          | none =>
            simp only [hcl] at h
            exact Option.noConfusion h
          | some cs2 =>
            cases hrest : toNestedL s f rest with
            | none =>
              simp only [hcl, hrest] at h
              exact Option.noConfusion h
            | some tl2 =>
              simp only [hcl, hrest, Option.some.injEq] at h
              rw [← h]
              simp only [namesOKL, namesOK, Bool.and_eq_true]
              exact ⟨⟨hnm, ih n.children cs2 hcl⟩, ih rest tl2 hrest⟩

/-- A decidable entry-wise name check implies the pointwise one. -/
theorem names_nonempty_of_all {s : Store}
    (h : s.all (fun kv => nonemptyS kv.2.name) = true) :
    ∀ i n, getN s i = some n → ¬ n.name = "" := by
  intro i n hg he
  have hm := getN_mem hg
  have h2 := List.all_eq_true.mp h _ hm
  simp only [nonemptyS] at h2
  rw [if_pos he] at h2
  exact Bool.noConfusion h2

/-- C6: amended nested round-trip.  For every store satisfying the structural
invariant in which every stored name is a non-empty string, re-importing the
nested export (`buildFromNested` after `toNested` at the root) yields a store
whose own nested export is the identical payload: the same shape, names, kinds
and child order, while node ids and `isOpen` flags are regenerated.  Without
the non-empty-name proviso the claim fails, because `buildFromNested` replaces
a falsy root name by `"PROJECT"` and falsy child names by `"untitled"` (see
the counterexample theorem). -/
theorem C6_nested_round_trip (s : Store) (f : Nat) (t : Nested) (hwf : WF s)
    (hn : ∀ i n, getN s i = some n → ¬ n.name = "")
    (ht : toNested s f NId.root = some t) :
    ∃ f2, toNested (buildFromNested t) f2 NId.root = some t := by
  obtain ⟨rn, hgr, hkr, _⟩ := wf_root hwf
  simp only [toNested, hgr, hkr] at ht
  cases hcl : toNestedL s f rn.children with
  | none =>
    rw [hcl] at ht
    exact Option.noConfusion ht
  | some cs =>
    rw [hcl] at ht
    simp only [Option.map_some', Option.some.injEq] at ht
    subst ht
    have hok : namesOKL cs = true := toNestedL_namesOK hn f rn.children cs hcl
    have hnm : ¬ rn.name = "" := hn NId.root rn hgr
    refine ⟨nsizeL cs, ?_⟩
    rw [buildFromNested_toNested rn.name cs,
      (withDefaults_namesOK_aux (nsizeL cs)).2 cs (Nat.le_refl _) hok]
    simp only [nameOr, if_neg hnm]

theorem C6_nested_round_trip_witness :
    ∃ f2, toNested (buildFromNested (Nested.folder "PROJECT"
      [Nested.folder "a" [Nested.file "b"]])) f2 NId.root =
      some (Nested.folder "PROJECT" [Nested.folder "a" [Nested.file "b"]]) :=
  C6_nested_round_trip sampleAB 2
    (Nested.folder "PROJECT" [Nested.folder "a" [Nested.file "b"]])
    (by decide) (names_nonempty_of_all (by decide)) rfl
